import Mathlib

/-!
# Verification of the handlr-regex handler-resolution engine

Shallow embedding of the core logic of the `handlr-regex` repository:
the MIME-handler resolution chain (`MimeApps::get_handler`,
`MimeApps::get_handler_from_user`, `MimeApps::get_handler_from_added_associations`
in `src/handlr-regex/src/apps/user.rs`), the interactive selector
(`Config::select` in `src/handlr-regex/src/config.rs`), the command builder
(`DesktopEntry::get_cmd` / `DesktopEntry::exec` in `src/src/common/desktop_entry.rs`),
the terminal-emulator fallback (`Config::terminal`), the batch-open grouping
(`Config::assign_files_to_handlers` / `MimeApps::open_paths`), the top-level
error handling (`error::handle`, `main`), and the `mimeapps.list` persistence
layer (`MimeApps::read` / `MimeApps::save`).

Strings are modelled as `List Char` (`Str`).  Rust `HashMap`s are modelled as
association lists whose lookup takes the first matching key; where the code
iterates over a `HashMap` (whose iteration order is unspecified) the order is
an explicit parameter.  Filesystem- and process-dependent collaborators
(`DesktopHandler::get_entry`, the selector child process, `xdg` lookups) are
parameters of the embedded functions.  Rust panics (`unwrap` on `None`) are a
distinct `Res.panic` outcome.
-/

set_option linter.unusedVariables false

deriving instance DecidableEq for Except

/-- Character-list strings; the model of Rust `String`/`&str`. -/
abbrev Str := List Char

/-- The error variants relevant to the verified code paths
(from `src/src/error.rs` / `src/handlr-regex/src/error.rs`). -/
inductive RErr where
  | notFound (key : Str)
  | cancelled
  | noTerminal
  | selectorErr (cmd : Str)
  deriving DecidableEq, Repr

/-- Outcome of a Rust computation that may return `Ok`, return `Err`,
or panic (an `unwrap` on `None`). -/
inductive Res (α : Type) where
  | ok (a : α)
  | err (e : RErr)
  | panic
  deriving DecidableEq, Repr

namespace Res

/-- Model of `Result::or_else`: `ok` and panics propagate, `err` falls
through to the alternative. -/
def orElse (r : Res α) (f : Unit → Res α) : Res α :=
  match r with
  | .err _ => f ()
  | r => r

end Res

/-- First-match association-list lookup; the model of `HashMap::get`
(keys are unique in every map the code builds). -/
def lookupA (k : Str) : List (Str × List Str) → Option (List Str)
  | [] => none
  | (k', v) :: rest => if k' = k then some v else lookupA k rest

/-- `HashMap::insert`: replace the value at an existing key, otherwise add
the binding. -/
def insertReplace (k : Str) (v : List Str) : List (Str × List Str) → List (Str × List Str)
  | [] => [(k, v)]
  | (k', v') :: rest => if k' = k then (k, v) :: rest else (k', v') :: insertReplace k v rest

/-- The user's `mimeapps.list` state: `added_associations` and `default_apps`
(struct `MimeApps` in `src/handlr-regex/src/apps/user.rs`). -/
structure MimeAppsL where
  added : List (Str × List Str)
  defaultApps : List (Str × List Str)
  deriving DecidableEq, Repr

/-- The empty `MimeApps` (its `Default`). -/
def MimeAppsL.empty : MimeAppsL := ⟨[], []⟩

/-- `MimeApps::add_handler`: `default_apps.entry(mime).or_default().push_back(handler)`. -/
def addHandlerA (m : Str) (h : Str) (apps : MimeAppsL) : MimeAppsL :=
  { apps with defaultApps :=
      insertReplace m ((lookupA m apps.defaultApps).getD [] ++ [h]) apps.defaultApps }

/-- `MimeApps::set_handler`: `default_apps.insert(mime, vec![handler])`. -/
def setHandlerA (m : Str) (h : Str) (apps : MimeAppsL) : MimeAppsL :=
  { apps with defaultApps := insertReplace m [h] apps.defaultApps }

/-- `MimeApps::remove_handler`: `default_apps.entry(mime).or_default()`, then
remove the first position whose element equals the handler.  Note
`entry(..).or_default()` materialises an (empty) list even when the key was
absent, and an emptied list stays in the map. -/
def removeHandlerA (m : Str) (h : Str) (apps : MimeAppsL) : MimeAppsL :=
  let cur := (lookupA m apps.defaultApps).getD []
  { apps with defaultApps := insertReplace m (cur.erase h) apps.defaultApps }

/-- Rust `char::is_whitespace` restricted to the ASCII whitespace the
embedding needs. -/
def isWS (c : Char) : Bool := c = ' ' || c = '\t' || c = '\n' || c = '\r'

/-- Rust `str::trim_end`. -/
def trimEndS (s : Str) : Str := (s.reverse.dropWhile isWS).reverse

/-- Rust `str::trim`. -/
def trimS (s : Str) : Str := (s.dropWhile isWS).reverse.dropWhile isWS |>.reverse

/-- `Config::select` (src/handlr-regex/src/config.rs): pipe the choices to the
selector process, read its stdout (`raw`), `trim_end` it; an empty response is
the distinct `Cancelled` outcome, otherwise the trimmed response is returned. -/
def selectR (raw : Str) : Res Str :=
  let out := trimEndS raw
  if out = [] then .err .cancelled else .ok out

/-- `h.get_entry().unwrap().name` for every handler of a list, in order; the
first unreadable entry panics.  `entryName` is the desktop-entry collaborator:
`none` models `get_entry` returning `Err`. -/
def mapEntryNames (entryName : Str → Option Str) : List Str → Option (List (Str × Str))
  | [] => some []
  | h :: rest =>
    match entryName h with
    | none => none
    | some n => (mapEntryNames entryName rest).map ((h, n) :: ·)

/-- `MimeApps::get_handler_from_user` (src/handlr-regex/src/apps/user.rs,
lines 98-127).  `enableSelector` is `config.enable_selector`; `entryName` the
desktop-entry reader; `selRaw` the raw stdout of the selector process. -/
def getHandlerFromUser (enableSelector : Bool) (entryName : Str → Option Str)
    (selRaw : Str) (defaultApps : List (Str × List Str)) (m : Str) : Res Str :=
  match lookupA m defaultApps with
  | some handlers =>
    if enableSelector && handlers.length > 1 then
      match mapEntryNames entryName handlers with
      | none => .panic
      | some named =>
        match selectR selRaw with
        | .ok name =>
          match named.find? (fun p => p.2 = name) with
          | some p => .ok p.1
          | none => .panic
        | .err e => .err e
        | .panic => .panic
    else
      match handlers with
      | [] => .panic
      | h :: _ => .ok h
  | none => .err (.notFound m)

/-- `SystemApps::get_handler`: front of the system association list. -/
def sysGetHandler (sys : List (Str × List Str)) (m : Str) : Option Str :=
  (lookupA m sys).bind List.head?

/-- `MimeApps::get_handler_from_added_associations`
(src/handlr-regex/src/apps/user.rs, lines 130-142). -/
def getHandlerFromAdded (apps : MimeAppsL) (sys : List (Str × List Str)) (m : Str) : Res Str :=
  let o := match lookupA m apps.added with
    | some l => l.head?
    | none => sysGetHandler sys m
  match o with
  | some h => .ok h
  | none => .err (.notFound m)

/-- `mime.type_()`: the part of `type/subtype` before the slash. -/
def mimeTopType (m : Str) : Str := m.takeWhile (· ≠ '/')

/-- The wildcard key `type(mime)/*`. -/
def wildcardOf (m : Str) : Str := mimeTopType m ++ ['/', '*']

/-- `MimeApps::get_handler` (src/handlr-regex/src/apps/user.rs, lines 62-80):
exact `default_apps` lookup, a `Cancelled` there propagates; otherwise
`or_else` the wildcard lookup, `or_else` the added associations / system. -/
def getHandler (enableSelector : Bool) (entryName : Str → Option Str) (selRaw : Str)
    (apps : MimeAppsL) (sys : List (Str × List Str)) (m : Str) : Res Str :=
  match getHandlerFromUser enableSelector entryName selRaw apps.defaultApps m with
  | .err e =>
    if e = .cancelled then .err e
    else
      (getHandlerFromUser enableSelector entryName selRaw apps.defaultApps (wildcardOf m)).orElse
        (fun _ => getHandlerFromAdded apps sys m)
  | r => r

/-- The resolution chain exactly as claim C1 words it: front of the exact
`default_apps` entry, else front of the wildcard entry, else front of
`added_associations`, else front of the system catalog, else `NotFound`. -/
def claimResolve (apps : MimeAppsL) (sys : List (Str × List Str)) (m : Str) : Res Str :=
  match lookupA m apps.defaultApps with
  | some (h :: _) => .ok h
  | _ =>
    match lookupA (wildcardOf m) apps.defaultApps with
    | some (h :: _) => .ok h
    | _ =>
      match lookupA m apps.added with
      | some (h :: _) => .ok h
      | _ =>
        match lookupA m sys with
        | some (h :: _) => .ok h
        | _ => .err (.notFound m)

/-- All lists stored in a map are nonempty (true of every map the
parser builds: lines with an empty handler list are dropped). -/
def NonemptyVals (l : List (Str × List Str)) : Prop := ∀ p ∈ l, p.2 ≠ []

instance : DecidablePred NonemptyVals := fun l =>
  inferInstanceAs (Decidable (∀ p ∈ l, p.2 ≠ []))

lemma lookupA_nonempty {l : List (Str × List Str)} (hwf : NonemptyVals l)
    {k : Str} {v : List Str} (h : lookupA k l = some v) : v ≠ [] := by
  induction l with
  | nil => simp [lookupA] at h
  | cons p rest ih =>
    obtain ⟨k', v'⟩ := p
    by_cases hk : k' = k
    · simp [lookupA, hk] at h
      subst hk
      exact h ▸ hwf (k', v') (List.mem_cons_self _ _)
    · simp [lookupA, hk] at h
      exact ih (fun p hp => hwf p (List.mem_cons_of_mem _ hp)) h

lemma getHandlerFromUser_noSelector (en : Str → Option Str) (sel : Str)
    (d : List (Str × List Str)) (m : Str) :
    getHandlerFromUser false en sel d m =
      match lookupA m d with
      | some [] => .panic
      | some (h :: _) => .ok h
      | none => .err (.notFound m) := by
  unfold getHandlerFromUser
  cases lookupA m d with
  | none => rfl
  | some handlers => cases handlers <;> simp

/-- C1: with interactive selection disabled, `resolve(mime)` walks exactly the
precedence chain: exact `default_apps`, wildcard `default_apps`, added
associations, system catalog, `NotFound`.  The exact match wins over the
wildcard, and `added_associations` is consulted only after both `default_apps`
lookups fail. -/
theorem resolve_precedence_chain (en : Str → Option Str) (sel : Str)
    (apps : MimeAppsL) (sys : List (Str × List Str)) (m : Str)
    (hd : NonemptyVals apps.defaultApps) (ha : NonemptyVals apps.added)
    (hs : NonemptyVals sys) :
    getHandler false en sel apps sys m = claimResolve apps sys m := by
  unfold getHandler claimResolve
  rw [getHandlerFromUser_noSelector, getHandlerFromUser_noSelector]
  rcases hexact : lookupA m apps.defaultApps with _ | l
  · rcases hwild : lookupA (wildcardOf m) apps.defaultApps with _ | lw
    · unfold Res.orElse getHandlerFromAdded
      rcases hadd : lookupA m apps.added with _ | la
      · unfold sysGetHandler
        rcases hsys : lookupA m sys with _ | ls
        · simp
        · rcases ls with _ | ⟨h, t⟩
          · exact absurd rfl (lookupA_nonempty hs hsys)
          · simp
      · rcases la with _ | ⟨h, t⟩
        · exact absurd rfl (lookupA_nonempty ha hadd)
        · simp
    · rcases lw with _ | ⟨h, t⟩
      · exact absurd rfl (lookupA_nonempty hd hwild)
      · simp [Res.orElse]
  · rcases l with _ | ⟨h, t⟩
    · exact absurd rfl (lookupA_nonempty hd hexact)
    · simp

/-- Witness for C1 at a concrete registry: `video/webm` resolves to the exact
entry, not the wildcard entry, and a mime with neither falls through to the
added associations. -/
theorem resolve_precedence_chain_witness :
    getHandler false (fun _ => none) []
        ⟨[(['a','/','b'], [['y']])], [(['v','/','*'], [['w']]), (['v','/','m'], [['x']])]⟩
        [] ['v','/','m'] = .ok ['x'] ∧
      getHandler false (fun _ => none) []
        ⟨[(['a','/','b'], [['y']])], [(['v','/','*'], [['w']]), (['v','/','m'], [['x']])]⟩
        [] ['a','/','b'] = .ok ['y'] := by
  constructor
  · rw [resolve_precedence_chain (fun _ => none) []
      ⟨[(['a','/','b'], [['y']])], [(['v','/','*'], [['w']]), (['v','/','m'], [['x']])]⟩
      [] ['v','/','m'] (by decide) (by decide) (by decide)]
    decide
  · rw [resolve_precedence_chain (fun _ => none) []
      ⟨[(['a','/','b'], [['y']])], [(['v','/','*'], [['w']]), (['v','/','m'], [['x']])]⟩
      [] ['a','/','b'] (by decide) (by decide) (by decide)]
    decide

/-- C4 (code bug): removing the last handler leaves the mime key present with
an empty list, and a subsequent resolution panics on `front().unwrap()` in
`get_handler_from_user` instead of failing over to the later precedence
steps.  Evaluated at the concrete failing input
`add t/p a; remove t/p a; resolve t/p`. -/
theorem remove_last_handler_then_resolve_panics :
    (removeHandlerA ['t','/','p'] ['a'] (addHandlerA ['t','/','p'] ['a'] MimeAppsL.empty)).defaultApps
        = [(['t','/','p'], [])] ∧
      getHandler false (fun _ => none) []
        (removeHandlerA ['t','/','p'] ['a'] (addHandlerA ['t','/','p'] ['a'] MimeAppsL.empty))
        [] ['t','/','p'] = .panic := by
  constructor <;> decide

lemma allWS_dropWhile (s : Str) :
    (∀ x ∈ s.dropWhile isWS, isWS x) ↔ ∀ x ∈ s, isWS x := by
  constructor
  · intro h x hx
    rw [← List.takeWhile_append_dropWhile (p := isWS) (l := s)] at hx
    rcases List.mem_append.mp hx with h1 | h2
    · exact List.mem_takeWhile_imp h1
    · exact h x h2
  · intro h x hx
    refine h x ?_
    rw [← List.takeWhile_append_dropWhile (p := isWS) (l := s)]
    exact List.mem_append.mpr (Or.inr hx)

lemma trimEndS_eq_nil_iff (s : Str) : trimEndS s = [] ↔ trimS s = [] := by
  unfold trimEndS trimS
  simp only [List.reverse_eq_nil_iff, List.dropWhile_eq_nil_iff, List.mem_reverse]
  rw [allWS_dropWhile]

/-- C5: the selector yields the distinct `Cancelled` outcome exactly when its
trimmed output is empty, and a `Cancelled` arising from the exact
`default_apps` lookup propagates out of `get_handler` without falling through
to the wildcard, added-association, or system steps. -/
theorem cancelled_iff_empty_and_propagates (es : Bool) (en : Str → Option Str)
    (sel raw : Str) (apps : MimeAppsL) (sys : List (Str × List Str)) (m : Str) :
    (selectR raw = .err .cancelled ↔ trimS raw = []) ∧
      (getHandlerFromUser es en sel apps.defaultApps m = .err .cancelled →
        getHandler es en sel apps sys m = .err .cancelled) := by
  constructor
  · unfold selectR
    rcases h : trimEndS raw with _ | _
    · simp [(trimEndS_eq_nil_iff raw).mp h]
    · have : ¬ trimS raw = [] := fun hc => by
        have := (trimEndS_eq_nil_iff raw).mpr hc
        rw [h] at this; exact absurd this (by simp)
      simp [h, this]
  · intro h
    unfold getHandler
    rw [h]
    simp

/-- Witness for C5: with the selector enabled, two handlers configured and an
empty selector response, resolution reports `Cancelled`; and a whitespace-only
selector response is cancellation. -/
theorem cancelled_iff_empty_and_propagates_witness :
    getHandler true (fun h => some h) []
        ⟨[], [(['m'], [['a'], ['b']])]⟩ [] ['m'] = .err .cancelled ∧
      (selectR [' '] = .err .cancelled ↔ trimS [' '] = []) :=
  ⟨(cancelled_iff_empty_and_propagates true (fun h => some h) [] []
      ⟨[], [(['m'], [['a'], ['b']])]⟩ [] ['m']).2 (by decide),
    (cancelled_iff_empty_and_propagates true (fun h => some h) [' '] [' ']
      ⟨[], [(['m'], [['a'], ['b']])]⟩ [] ['m']).1⟩

lemma mapEntryNames_eq_none_iff (en : Str → Option Str) (l : List Str) :
    mapEntryNames en l = none ↔ ∃ h ∈ l, en h = none := by
  induction l with
  | nil => simp [mapEntryNames]
  | cons h rest ih =>
    rcases hh : en h with _ | n
    · simp only [mapEntryNames, hh, true_iff]
      exact ⟨h, List.mem_cons_self _ _, hh⟩
    · rcases hrest : mapEntryNames en rest with _ | nm
      · simp only [mapEntryNames, hh, hrest, Option.map_none', true_iff]
        obtain ⟨x, hx, hx'⟩ := ih.mp hrest
        exact ⟨x, List.mem_cons_of_mem _ hx, hx'⟩
      · simp only [mapEntryNames, hh, hrest, Option.map_some', reduceCtorEq, false_iff]
        push_neg
        intro x hx hc
        rcases List.mem_cons.mp hx with rfl | hx'
        · rw [hh] at hc; exact Option.noConfusion hc
        · have h2 : mapEntryNames en rest = none := ih.mpr ⟨x, hx', hc⟩
          rw [hrest] at h2; exact Option.noConfusion h2

lemma mapEntryNames_find (en : Str → Option Str) (l : List Str) (nm : List (Str × Str))
    (hnm : mapEntryNames en l = some nm) (out : Str) :
    nm.find? (fun p => p.2 = out) =
      (l.find? (fun h => en h = some out)).map (fun h => (h, out)) := by
  induction l generalizing nm with
  | nil =>
    unfold mapEntryNames at hnm
    injection hnm with hnil
    subst hnil
    simp
  | cons h rest ih =>
    unfold mapEntryNames at hnm
    rcases hh : en h with _ | n
    · rw [hh] at hnm; exact Option.noConfusion hnm
    · rw [hh] at hnm
      rcases hrest : mapEntryNames en rest with _ | nm'
      · rw [hrest] at hnm; exact Option.noConfusion hnm
      · rw [hrest] at hnm
        simp only [Option.map_some', Option.some.injEq] at hnm
        subst hnm
        by_cases hout : n = out
        · subst hout
          simp [List.find?, hh]
        · have h1 : (decide (en h = some out)) = false := by
            rw [hh]; simpa using hout
          have h3 : (decide (n = out)) = false := by simpa using hout
          simp only [List.find?, h1, h3]
          exact ih nm' hrest

lemma getHandler_of_user_ok (es : Bool) (en : Str → Option Str) (sel : Str)
    (apps : MimeAppsL) (sys : List (Str × List Str)) (m : Str) (h : Str)
    (hu : getHandlerFromUser es en sel apps.defaultApps m = .ok h) :
    getHandler es en sel apps sys m = .ok h := by
  unfold getHandler; rw [hu]

lemma getHandler_of_user_panic (es : Bool) (en : Str → Option Str) (sel : Str)
    (apps : MimeAppsL) (sys : List (Str × List Str)) (m : Str)
    (hu : getHandlerFromUser es en sel apps.defaultApps m = .panic) :
    getHandler es en sel apps sys m = .panic := by
  unfold getHandler; rw [hu]

/-- C10: with interactive selection enabled and more than one configured
handler, resolution returns the first handler of the list whose desktop-entry
name equals the selector's (end-trimmed, non-empty) response; a response that
names no offered handler panics, and an unreadable desktop entry of any
handler in the list panics, rather than returning an error result. -/
theorem selector_picks_first_by_name_or_panics (en : Str → Option Str) (sel : Str)
    (apps : MimeAppsL) (sys : List (Str × List Str)) (m : Str) (hs : List Str)
    (hlook : lookupA m apps.defaultApps = some hs) (hlen : 1 < hs.length) :
    ((∃ h ∈ hs, en h = none) → getHandler true en sel apps sys m = .panic) ∧
      ((∀ h ∈ hs, (en h).isSome) → trimEndS sel ≠ [] →
        (∀ h, hs.find? (fun h' => en h' = some (trimEndS sel)) = some h →
            getHandler true en sel apps sys m = .ok h) ∧
          (hs.find? (fun h' => en h' = some (trimEndS sel)) = none →
            getHandler true en sel apps sys m = .panic)) := by
  have hguard : (true && hs.length > 1) = true := by
    simp [hlen]
  constructor
  · intro hbad
    refine getHandler_of_user_panic _ _ _ _ _ _ ?_
    unfold getHandlerFromUser
    rw [hlook]
    simp only [hguard, if_true]
    rw [(mapEntryNames_eq_none_iff en hs).mpr hbad]
  · intro hread hne
    have hnm : ∃ nm, mapEntryNames en hs = some nm := by
      rcases h : mapEntryNames en hs with _ | nm
      · obtain ⟨x, hx, hx'⟩ := (mapEntryNames_eq_none_iff en hs).mp h
        have := hread x hx
        rw [hx'] at this
        exact absurd this (by simp)
      · exact ⟨nm, rfl⟩
    obtain ⟨nm, hnm⟩ := hnm
    have hsel : selectR sel = .ok (trimEndS sel) := by
      unfold selectR
      simp [hne]
    constructor
    · intro h hfind
      refine getHandler_of_user_ok _ _ _ _ _ _ _ ?_
      unfold getHandlerFromUser
      rw [hlook]
      simp only [hguard, if_true]
      rw [hnm, hsel]
      simp only [mapEntryNames_find en hs nm hnm, hfind, Option.map_some']
    · intro hfind
      refine getHandler_of_user_panic _ _ _ _ _ _ ?_
      unfold getHandlerFromUser
      rw [hlook]
      simp only [hguard, if_true]
      rw [hnm, hsel]
      simp only [mapEntryNames_find en hs nm hnm, hfind, Option.map_none']

/-- Witness for C10: selector response `b` (with a trailing newline) picks the
second handler, whose entry name is `b`. -/
theorem selector_picks_first_by_name_or_panics_witness :
    getHandler true (fun h => some h) ['b', '\n']
      ⟨[], [(['m'], [['a'], ['b']])]⟩ [] ['m'] = .ok ['b'] :=
  ((selector_picks_first_by_name_or_panics (fun h => some h) ['b', '\n']
      ⟨[], [(['m'], [['a'], ['b']])]⟩ [] ['m'] [['a'], ['b']]
      (by decide) (by decide)).2 (by decide) (by decide)).1 ['b'] (by decide)

/-- Split a string at the first occurrence of `c` (`None` when absent);
used for the `name=value` split of a property line, the `type/subtype`
split of a mime string, and the `${name}` scan of replacement-string
interpolation. -/
def breakAtChar (c : Char) : Str → Option (Str × Str)
  | [] => none
  | x :: xs =>
    if x = c then some ([], xs)
    else (breakAtChar c xs).map (fun p => (x :: p.1, p.2))

lemma breakAtChar_len (c : Char) (s a b : Str) (h : breakAtChar c s = some (a, b)) :
    b.length < s.length := by
  induction s generalizing a b with
  | nil => simp [breakAtChar] at h
  | cons x xs ih =>
    unfold breakAtChar at h
    by_cases hx : x = c
    · simp only [hx, if_true] at h
      injection h with h
      rw [Prod.mk.injEq] at h
      rw [← h.2]
      simp
    · simp only [hx, if_false] at h
      rcases hb : breakAtChar c xs with _ | ⟨a2, b2⟩
      · rw [hb] at h; exact Option.noConfusion h
      · rw [hb] at h
        simp only [Option.map_some', Option.some.injEq, Prod.mk.injEq] at h
        have := ih a2 b2 hb
        rw [← h.2]
        simp
        omega

/-- The characters of an unbraced `$name` capture reference in the regex
crate's replacement-string interpolation (`[0-9A-Za-z_]`). -/
def isCapLetter (x : Char) : Bool := x.isAlphanum || x = '_'

/-- The capture groups of a `%(f|u)` match whose letter is `c`: group 0 is
the whole matched token, group 1 the letter; any other group is absent and
expands to the empty string. -/
def capValue (c : Char) (i : Nat) : Str :=
  if i = 0 then ['%', c] else if i = 1 then [c] else []

/-- Decimal digit-string parse. -/
def parseDec : Str → Option Nat
  | [] => none
  | s =>
    if s.all Char.isDigit then
      some (s.foldl (fun n d => n * 10 + (d.toNat - 48)) 0)
    else none

/-- `u32::from_str` as applied to a capture name: an optional leading `+`
followed by digits (overflowing values resolve to absent groups either
way). -/
def parseCapIndex : Str → Option Nat
  | '+' :: rest => parseDec rest
  | s => parseDec s

/-- Resolve a capture reference of the replacement string: a numeric name is
a group index; the pattern `%(f|u)` has no named groups, so any other name
expands to the empty string. -/
def refValue (c : Char) (nm : Str) : Str :=
  match parseCapIndex nm with
  | some i => capValue c i
  | none => []

/-- The regex crate's replacement-string interpolation (`Captures::expand`,
applied by `replace_all` with a `String` replacer) specialised to a
`%(f|u)` match whose letter is `c`: `$$` is a literal `$`; `${name}` is a
capture reference (a `${` without a closing brace or with an empty name
leaves the `$` literal); `$name` takes the longest run of `[0-9A-Za-z_]`
as the name, and a `$` followed by no name character is literal. -/
def expandRepl (c : Char) : Str → Str
  | '$' :: '$' :: rest => '$' :: expandRepl c rest
  | '$' :: '{' :: rest =>
    (match hb : breakAtChar '}' rest with
    | some (nm, rest3) =>
      if nm = [] then '$' :: '{' :: '}' :: expandRepl c rest3
      else refValue c nm ++ expandRepl c rest3
    | none => '$' :: expandRepl c ('{' :: rest))
  | '$' :: x :: rest =>
    if isCapLetter x then
      refValue c ((x :: rest).takeWhile isCapLetter)
        ++ expandRepl c ((x :: rest).drop ((x :: rest).takeWhile isCapLetter).length)
    else '$' :: expandRepl c (x :: rest)
  | x :: rest => x :: expandRepl c rest
  | [] => []
termination_by s => s.length
decreasing_by
  all_goals simp only [List.length_cons, List.length_drop]
  · omega
  · have := breakAtChar_len '}' rest nm rest3 hb
    omega
  · have := breakAtChar_len '}' rest nm rest3 hb
    omega
  · omega
  · omega
  · omega
  · omega

/-- Is this character one matched by the `(f|u)` group of the
case-insensitive regex `%(f|u)` in `DesktopEntry::get_cmd`? -/
def isFU (c : Char) : Bool := c = 'f' || c = 'F' || c = 'u' || c = 'U'

/-- `regex!("%(f|u)"i).is_match(exec)`. -/
def hasFU : Str → Bool
  | '%' :: c :: rest => isFU c || hasFU (c :: rest)
  | _ :: rest => hasFU rest
  | [] => false

/-- `special.replace_all(&exec, args)`: replace every leftmost
non-overlapping match of the case-insensitive `%(f|u)` with the
`$`-expansion of the replacement string `a` for that match. -/
def replaceAllFU (a : Str) : Str → Str
  | '%' :: c :: rest =>
    if isFU c then expandRepl c a ++ replaceAllFU a rest
    else '%' :: replaceAllFU a (c :: rest)
  | x :: rest => x :: replaceAllFU a rest
  | [] => []

/-- `Vec::join(sep)` over a single separator character. -/
def joinWithChar (c : Char) : List Str → Str
  | [] => []
  | [x] => x
  | x :: xs => x ++ c :: joinWithChar c xs

/-- `DesktopEntry::get_cmd` (src/src/common/desktop_entry.rs, lines 79-106):
substitute the space-joined arguments into the `%f`/`%u` placeholders, or
append them; prepend the terminal command when the entry wants a terminal and
the process is not running in one; trim the result.  `termCmd` is the outcome
of the `config.terminal()` collaborator. -/
def getCmd (exec : Str) (terminal : Bool) (terminalOutput : Bool)
    (termCmd : Res Str) (args : List Str) : Res Str :=
  let argsJ := joinWithChar ' ' args
  let e1 := if hasFU exec then replaceAllFU argsJ exec else exec ++ ' ' :: argsJ
  if terminal && !terminalOutput then
    match termCmd with
    | .ok t => .ok (trimS (t ++ ' ' :: e1))
    | .err e => .err e
    | .panic => .panic
  else
    .ok (trimS e1)

/-- C2 counterexample: with two placeholders in the template, *both* are
substituted (`replace_all`), so the claimed output that leaves the second
`%U` untouched is wrong. -/
theorem getCmd_first_token_only_counterexample :
    getCmd ("vlc %U %U".data) false false (.err .noTerminal) [("a.mp4".data)]
        = .ok ("vlc a.mp4 a.mp4".data) ∧
      ("vlc a.mp4 a.mp4".data : Str) ≠ ("vlc a.mp4 %U".data) := by
  constructor
  · simp [getCmd, hasFU, replaceAllFU, expandRepl, joinWithChar, trimS, isWS,
      isFU, List.dropWhile]
  · decide

/-- Prepend a character to the first segment of a split (used to state what
`replace_all` does to non-matching characters). -/
def consHead (x : Char) : List Str → List Str
  | [] => [[x]]
  | h :: t => (x :: h) :: t

/-- The segments of the template between consecutive case-insensitive
`%f`/`%u` tokens: substituting every token is rejoining these segments with
the argument string. -/
def splitFU : Str → List Str
  | '%' :: c :: rest =>
    if isFU c then [] :: splitFU rest else consHead '%' (splitFU (c :: rest))
  | x :: rest => consHead x (splitFU rest)
  | [] => [[]]

/-- `List.intercalate` with an explicit separator string. -/
def interS (sep : Str) : List Str → Str
  | [] => []
  | [x] => x
  | x :: xs => x ++ sep ++ interS sep xs

lemma consHead_ne_nil (x : Char) (l : List Str) : consHead x l ≠ [] := by
  cases l <;> simp [consHead]

lemma splitFU_percent (c : Char) (rest : Str) :
    splitFU ('%' :: c :: rest) =
      if isFU c then [] :: splitFU rest else consHead '%' (splitFU (c :: rest)) := rfl

lemma splitFU_other (x : Char) (hx : x ≠ '%') (rest : Str) :
    splitFU (x :: rest) = consHead x (splitFU rest) := by
  rcases rest with _ | ⟨y, t⟩
  · simp [splitFU, consHead]
  · simp [splitFU, hx]

lemma splitFU_ne_nil (s : Str) : splitFU s ≠ [] := by
  rcases s with _ | ⟨x, _ | ⟨y, t⟩⟩
  · simp [splitFU]
  · by_cases hx : x = '%'
    · subst hx; simp [splitFU, consHead]
    · rw [splitFU_other x hx]; exact consHead_ne_nil _ _
  · by_cases hx : x = '%'
    · subst hx
      rw [splitFU_percent]
      by_cases hy : isFU y
      · simp [hy]
      · simp only [hy, Bool.false_eq_true, if_false]
        exact consHead_ne_nil _ _
    · rw [splitFU_other x hx]; exact consHead_ne_nil _ _

lemma replaceAllFU_percent (a : Str) (c : Char) (rest : Str) :
    replaceAllFU a ('%' :: c :: rest) =
      if isFU c then expandRepl c a ++ replaceAllFU a rest
      else '%' :: replaceAllFU a (c :: rest) := rfl

lemma expandRepl_other (c x : Char) (hx : x ≠ '$') (rest : Str) :
    expandRepl c (x :: rest) = x :: expandRepl c rest := by
  rcases rest with _ | ⟨y, t⟩
  · simp [expandRepl, hx]
  · simp [expandRepl, hx]

/-- Expansion of a replacement string containing no `$` is literal
insertion. -/
lemma expandRepl_nodollar (c : Char) (a : Str) (ha : '$' ∉ a) :
    expandRepl c a = a := by
  induction a with
  | nil => simp [expandRepl]
  | cons x rest ih =>
    have hx : x ≠ '$' := fun hc => ha (hc ▸ List.mem_cons_self _ _)
    rw [expandRepl_other c x hx rest,
      ih (fun hc => ha (List.mem_cons_of_mem _ hc))]

lemma replaceAllFU_other (a : Str) (x : Char) (hx : x ≠ '%') (rest : Str) :
    replaceAllFU a (x :: rest) = x :: replaceAllFU a rest := by
  rcases rest with _ | ⟨y, t⟩
  · simp [replaceAllFU]
  · simp [replaceAllFU, hx]

lemma interS_cons_ne (a : Str) (x : Str) (l : List Str) (hl : l ≠ []) :
    interS a (x :: l) = x ++ a ++ interS a l := by
  rcases l with _ | ⟨h, t⟩
  · exact absurd rfl hl
  · rfl

lemma interS_consHead (a : Str) (x : Char) (l : List Str) (hl : l ≠ []) :
    interS a (consHead x l) = x :: interS a l := by
  rcases l with _ | ⟨h, t⟩
  · exact absurd rfl hl
  · rcases t with _ | ⟨y, t'⟩
    · simp [consHead, interS]
    · simp [consHead, interS]

/-- For a `$`-free replacement string, `replace_all` is exactly
"substitute the argument string for every token": it rejoins the
between-token segments with the argument string. -/
lemma replaceAllFU_eq_interS (a s : Str) (ha : '$' ∉ a) :
    replaceAllFU a s = interS a (splitFU s) := by
  have H : ∀ n (s : Str), s.length ≤ n → replaceAllFU a s = interS a (splitFU s) := by
    intro n
    induction n with
    | zero =>
      intro s hs
      have : s = [] := List.length_eq_zero.mp (Nat.le_zero.mp hs)
      subst this
      simp [replaceAllFU, splitFU, interS]
    | succ n ih =>
      intro s hs
      rcases s with _ | ⟨x, rest⟩
      · simp [replaceAllFU, splitFU, interS]
      · by_cases hx : x = '%'
        · subst hx
          rcases rest with _ | ⟨c, rest'⟩
          · simp [replaceAllFU, splitFU, consHead, interS]
          · rw [replaceAllFU_percent, splitFU_percent]
            by_cases hc : isFU c
            · simp only [hc, if_true]
              rw [interS_cons_ne _ _ _ (splitFU_ne_nil rest'),
                ih rest' (by simp at hs; omega), expandRepl_nodollar c a ha]
              simp
            · simp only [hc, Bool.false_eq_true, if_false]
              rw [interS_consHead _ _ _ (splitFU_ne_nil (c :: rest')),
                ih (c :: rest') (by simp at hs ⊢; omega)]
        · rw [replaceAllFU_other a x hx, splitFU_other x hx,
            interS_consHead _ _ _ (splitFU_ne_nil rest),
            ih rest (by simp at hs; omega)]
  exact H s.length s le_rfl

/-- C2 (amended): `get_cmd` substitutes into *every* case-insensitive
`%f`/`%u` token, not only the first.  What is substituted is the
`$`-expansion of the space-joined argument list for that match; when the
argument string contains no `$` it is inserted literally at every token
(the template splits at each token and rejoins with the argument string).
With no token present the arguments are appended after a single space.
The closed conjuncts exhibit the expansion: `$1` becomes the matched
letter and `$$` a literal dollar. -/
theorem getCmd_substitutes_every_token (exec : Str) (args : List Str)
    (b : Bool) (tc : Res Str) :
    (hasFU exec = true → '$' ∉ joinWithChar ' ' args →
        getCmd exec false b tc args =
          .ok (trimS (interS (joinWithChar ' ' args) (splitFU exec)))) ∧
      (hasFU exec = false →
        getCmd exec false b tc args =
          .ok (trimS (exec ++ ' ' :: joinWithChar ' ' args))) ∧
      getCmd ("vlc %U".data) false b tc [("a$1.mp4".data)]
        = .ok ("vlc aU.mp4".data) ∧
      getCmd ("vlc %u".data) false b tc [("a$$b.mp4".data)]
        = .ok ("vlc a$b.mp4".data) := by
  refine ⟨?_, ?_, ?_, ?_⟩
  · intro h hd
    unfold getCmd
    simp only [h, if_true, Bool.false_and, Bool.false_eq_true, if_false,
      replaceAllFU_eq_interS _ _ hd]
  · intro h
    unfold getCmd
    simp only [h, Bool.false_eq_true, if_false, Bool.false_and]
  · simp [getCmd, hasFU, replaceAllFU, expandRepl, joinWithChar, trimS, isWS,
      isFU, isCapLetter, refValue, parseCapIndex, parseDec, capValue,
      List.dropWhile]
  · simp [getCmd, hasFU, replaceAllFU, expandRepl, joinWithChar, trimS, isWS,
      isFU, isCapLetter, refValue, parseCapIndex, parseDec, capValue,
      List.dropWhile]

/-- Witness for C2's amended claim: both placeholders of `vlc %U %U` are
substituted with the (`$`-free) argument string, and the no-placeholder
template gets the arguments appended. -/
theorem getCmd_substitutes_every_token_witness :
    getCmd ("vlc %U %U".data) false false (.err .noTerminal) [("a.mp4".data)]
        = .ok (trimS (interS (joinWithChar ' ' [("a.mp4".data)])
            (splitFU ("vlc %U %U".data)))) ∧
      getCmd ("vlc".data) false false (.err .noTerminal) [("a.mp4".data)]
        = .ok (trimS (("vlc".data) ++ ' ' :: joinWithChar ' ' [("a.mp4".data)])) :=
  ⟨(getCmd_substitutes_every_token ("vlc %U %U".data) [("a.mp4".data)] false
      (.err .noTerminal)).1 (by decide) (by decide),
    (getCmd_substitutes_every_token ("vlc".data) [("a.mp4".data)] false
      (.err .noTerminal)).2.1 (by decide)⟩

/-- Case-sensitive substring test for a two-character token `a b`
(Rust `str::contains("%F")` etc.). -/
def hasTok (a b : Char) : Str → Bool
  | x :: y :: rest => (x = a && y = b) || hasTok a b (y :: rest)
  | _ => false

/-- `self.exec.contains("%F") || self.exec.contains("%U")` in
`DesktopEntry::exec`. -/
def supportsMultiple (exec : Str) : Bool := hasTok '%' 'F' exec || hasTok '%' 'U' exec

/-- The two run modes of `DesktopEntry::exec`. -/
inductive ExecMode where
  | launch
  | openFiles
  deriving DecidableEq, Repr

/-- The per-argument loop of `DesktopEntry::exec`: one invocation per
argument, in order, stopping at the first failure (`?`).  `run` is the
`exec_inner` collaborator (command construction plus spawn); the result is
the trace of attempted invocations and the overall success. -/
def execLoop (run : List Str → Bool) : List Str → List (List Str) × Bool
  | [] => ([], true)
  | a :: rest =>
    if run [a] then
      let r := execLoop run rest
      ([a] :: r.1, r.2)
    else ([[a]], false)

/-- `DesktopEntry::exec` (src/src/common/desktop_entry.rs, lines 40-59):
empty arguments run once with no arguments; `%F`/`%U` templates and `Launch`
mode run once with the full list; otherwise one run per argument. -/
def execDE (exec : Str) (mode : ExecMode) (args : List Str)
    (run : List Str → Bool) : List (List Str) × Bool :=
  if args = [] then ([[]], run [])
  else if supportsMultiple exec || mode == ExecMode.launch then ([args], run args)
  else execLoop run args

/-- The invocation trace exactly as claim C9 words it: one invocation with no
arguments for an empty list; one invocation with the full list for `%F`/`%U`
templates or `Launch` mode; otherwise one invocation per argument in input
order, truncated just after the first failing argument. -/
def claimExecTrace (exec : Str) (mode : ExecMode) (args : List Str)
    (run : List Str → Bool) : List (List Str) :=
  if args = [] then [[]]
  else if supportsMultiple exec || mode == ExecMode.launch then [args]
  else
    let k := (args.takeWhile (fun a => run [a])).length
    (args.take (k + 1)).map (fun a => [a])

lemma execLoop_trace (run : List Str → Bool) (args : List Str) :
    (execLoop run args).1 =
      (args.take ((args.takeWhile (fun a => run [a])).length + 1)).map (fun a => [a]) ∧
      (execLoop run args).2 = args.all (fun a => run [a]) := by
  induction args with
  | nil => simp [execLoop]
  | cons a rest ih =>
    unfold execLoop
    by_cases ha : run [a] = true
    · rw [if_pos ha]
      constructor
      · simp only [List.takeWhile_cons, ha, if_true, List.length_cons,
          List.take_succ_cons, List.map_cons]
        rw [ih.1]
      · simp only [List.all_cons, ha, Bool.true_and]
        exact ih.2
    · rw [if_neg ha]
      have ha' : run [a] = false := by simpa using ha
      constructor
      · simp [List.takeWhile_cons, ha']
      · simp [ha']

lemma trace_all_eq (run : List Str → Bool) (args : List Str) :
    ((args.take ((args.takeWhile (fun a => run [a])).length + 1)).map
        (fun a => [a])).all run = args.all (fun a => run [a]) := by
  induction args with
  | nil => simp
  | cons a rest ih =>
    by_cases ha : run [a] = true
    · simp only [List.takeWhile_cons, ha, if_true, List.length_cons,
        List.take_succ_cons, List.map_cons, List.all_cons, ha, Bool.true_and]
      exact ih
    · have ha' : run [a] = false := by simpa using ha
      simp [List.takeWhile_cons, ha']

/-- C9: the batching policy of `exec`.  The attempted invocations are exactly
the claim's description (`claimExecTrace`), and the whole call succeeds
exactly when every attempted invocation succeeded. -/
theorem exec_batching_policy (exec : Str) (mode : ExecMode) (args : List Str)
    (run : List Str → Bool) :
    (execDE exec mode args run).1 = claimExecTrace exec mode args run ∧
      (execDE exec mode args run).2 =
        (claimExecTrace exec mode args run).all run := by
  unfold execDE claimExecTrace
  by_cases h0 : args = []
  · simp [h0]
  · simp only [h0, if_false]
    by_cases h1 : (supportsMultiple exec || mode == ExecMode.launch) = true
    · simp [h1]
    · simp only [h1, Bool.false_eq_true, if_false]
      exact ⟨(execLoop_trace run args).1,
        by rw [(execLoop_trace run args).2, trace_all_eq]⟩

/-- `std::process::ExitCode` outcomes used by `error::handle`. -/
inductive ExitCodeM where
  | success
  | failure
  deriving DecidableEq, Repr

/-- How the top level reports an error: not at all, through normal logging
(`info!`), or through error logging (`error!`). -/
inductive ReportM where
  | silent
  | infoLog (e : RErr)
  | errorLog (e : RErr)
  deriving DecidableEq, Repr

/-- `error::handle` (src/src/error.rs, lines 55-71): `Cancelled` is "an
acceptable outcome" — it is logged via `info!` and exits successfully; every
other error is logged via `error!` and exits with failure. -/
def handleE (r : Except RErr Unit) : ExitCodeM × ReportM :=
  match r with
  | .error e =>
    match e with
    | .cancelled => (.success, .infoLog .cancelled)
    | _ => (.failure, .errorLog e)
  | .ok _ => (.success, .silent)

/-- C6 counterexample: a user-cancelled selection reaches `handle` and exits
with `ExitCode::SUCCESS` (0), not the claimed non-zero failure code. -/
theorem handle_cancelled_exits_zero_counterexample :
    handleE (.error .cancelled) = (.success, .infoLog .cancelled) ∧
      ExitCodeM.success ≠ ExitCodeM.failure := by
  constructor <;> decide

/-- C6 (amended): the exit code is failure exactly for errors other than
`Cancelled`; `Cancelled` exits successfully and is reported through normal
logging rather than error logging, and a clean run reports nothing. -/
theorem handle_exit_policy (r : Except RErr Unit) :
    ((handleE r).1 = .failure ↔ ∃ e, r = .error e ∧ e ≠ .cancelled) ∧
      (r = .error .cancelled → handleE r = (.success, .infoLog .cancelled)) ∧
      (∀ e, r = .error e → e ≠ .cancelled → handleE r = (.failure, .errorLog e)) ∧
      (r = .ok () → handleE r = (.success, .silent)) := by
  rcases r with e | u
  · rcases e <;> simp [handleE]
  · simp [handleE]

/-- Witness for C6's amended claim: a `NotFound` error exits with failure and
error logging. -/
theorem handle_exit_policy_witness :
    handleE (.error (.notFound ['m'])) = (.failure, .errorLog (.notFound ['m'])) :=
  (handle_exit_policy (.error (.notFound ['m']))).2.2.1 (.notFound ['m']) rfl (by decide)

/-- `handlers.entry(handler).or_default().push(path)` in
`Config::assign_files_to_handlers`: append the path to the handler's group,
creating the group if needed. -/
def insertPush (h p : Str) : List (Str × List Str) → List (Str × List Str)
  | [] => [(h, [p])]
  | (k, v) :: rest => if k = h then (k, v ++ [p]) :: rest else (k, v) :: insertPush h p rest

/-- The loop of `Config::assign_files_to_handlers`
(src/src/config/main_config.rs, lines 233-247): resolve each path in order
(`?` aborts on the first resolution error) and group the paths by resolved
handler.  The group list is kept in first-creation order as a canonical
representation of the `HashMap`'s contents. -/
def assignFiles (resolve : Str → Except RErr Str) :
    List Str → List (Str × List Str) → Except RErr (List (Str × List Str))
  | [], acc => .ok acc
  | p :: ps, acc =>
    match resolve p with
    | .error e => .error e
    | .ok h => assignFiles resolve ps (insertPush h p acc)

/-- `Config::assign_files_to_handlers`. -/
def assignFilesToHandlers (resolve : Str → Except RErr Str) (paths : List Str) :
    Except RErr (List (Str × List Str)) :=
  assignFiles resolve paths []

/-- The invocation loop of `open_paths`: `for (handler, paths) in
handlers.into_iter() { handler.open(..., paths)? }`.  The order `ord` in
which the `HashMap` yields its entries is an explicit parameter (Rust's
`std::collections::HashMap` iteration order is unspecified); the result is
the trace of attempted invocations and the overall success. -/
def openPathsLoop (openH : Str → List Str → Bool) :
    List (Str × List Str) → List (Str × List Str) × Bool
  | [] => ([], true)
  | (h, ps) :: rest =>
    if openH h ps then
      let r := openPathsLoop openH rest
      ((h, ps) :: r.1, r.2)
    else ([(h, ps)], false)

/-- C3 counterexample: the reversed order of the two groups is a legitimate
iteration order of the handler map (a permutation of its entries), and under
it the groups are processed in the opposite of first-appearance order, so the
claimed processing order does not hold for every run. -/
theorem open_paths_group_order_counterexample :
    assignFilesToHandlers (fun p => .ok p) [['a'], ['b']]
        = .ok [(['a'], [['a']]), (['b'], [['b']])] ∧
      List.Perm [(['b'], [['b']]), (['a'], [['a']])] [(['a'], [['a']]), (['b'], [['b']])] ∧
      (openPathsLoop (fun _ _ => true) [(['b'], [['b']]), (['a'], [['a']])]).1
          = [(['b'], [['b']]), (['a'], [['a']])] ∧
      [(['b'], [['b']]), (['a'], [['a']])] ≠ [(['a'], [['a']]), (['b'], [['b']])] := by
  refine ⟨by decide, ?_, by decide, by decide⟩
  exact List.Perm.swap _ _ _

lemma lookupA_insertPush (h p k : Str) (gs : List (Str × List Str)) :
    lookupA k (insertPush h p gs) =
      if k = h then some ((lookupA h gs).getD [] ++ [p]) else lookupA k gs := by
  induction gs with
  | nil =>
    by_cases hk : k = h
    · subst hk; simp [insertPush, lookupA]
    · have hk' : ¬ h = k := fun hc => hk hc.symm
      simp [insertPush, lookupA, hk, hk']
  | cons q rest ih =>
    obtain ⟨k', v⟩ := q
    by_cases hk1 : k' = h
    · subst hk1
      by_cases hk : k = k'
      · subst hk
        simp [insertPush, lookupA]
      · have hk' : ¬ k' = k := fun hc => hk hc.symm
        simp [insertPush, lookupA, hk, hk']
    · by_cases hk2 : k' = k
      · subst hk2
        have hkh : ¬ k' = h := hk1
        simp [insertPush, lookupA, hk1, hkh]
      · simp [insertPush, lookupA, hk1, hk2, ih]

lemma keys_insertPush (h p : Str) (gs : List (Str × List Str)) :
    (insertPush h p gs).map Prod.fst =
      if h ∈ gs.map Prod.fst then gs.map Prod.fst else gs.map Prod.fst ++ [h] := by
  induction gs with
  | nil => simp [insertPush]
  | cons q rest ih =>
    obtain ⟨k, v⟩ := q
    by_cases hk : k = h
    · subst hk; simp [insertPush]
    · have hk2 : ¬ h = k := fun hc => hk hc.symm
      simp only [insertPush, hk, if_false, List.map_cons]
      rw [ih]
      by_cases hmem : h ∈ rest.map Prod.fst
      · simp [hmem, hk2]
      · simp [hmem, hk2]

lemma nodup_keys_insertPush (h p : Str) (gs : List (Str × List Str))
    (hnd : (gs.map Prod.fst).Nodup) : ((insertPush h p gs).map Prod.fst).Nodup := by
  rw [keys_insertPush]
  by_cases hmem : h ∈ gs.map Prod.fst
  · simpa [hmem]
  · simp [hmem, List.nodup_append, hnd]

lemma mem_iff_lookupA (gs : List (Str × List Str)) (hnd : (gs.map Prod.fst).Nodup)
    (h : Str) (l : List Str) : (h, l) ∈ gs ↔ lookupA h gs = some l := by
  induction gs with
  | nil => simp [lookupA]
  | cons q rest ih =>
    obtain ⟨k, v⟩ := q
    simp only [List.map_cons, List.nodup_cons] at hnd
    by_cases hk : k = h
    · subst hk
      simp only [lookupA, if_true, List.mem_cons]
      constructor
      · rintro (heq | hmem)
        · rw [Prod.mk.injEq] at heq
          rw [heq.2]
        · exact absurd (List.mem_map_of_mem Prod.fst hmem) hnd.1
      · intro hl
        exact Or.inl (by injection hl with hl; rw [hl])
    · simp only [lookupA, hk, if_false, List.mem_cons]
      rw [← ih hnd.2]
      constructor
      · rintro (heq | hmem)
        · rw [Prod.mk.injEq] at heq
          exact absurd heq.1 (fun hc => hk hc.symm)
        · exact hmem
      · exact Or.inr

/-- `ps.filter (resolve · = ok h)`: the paths of `ps` resolving to `h`,
in input order. -/
def pathsFor (resolve : Str → Except RErr Str) (ps : List Str) (h : Str) : List Str :=
  ps.filter (fun p => resolve p = .ok h)

lemma assign_lookup (resolve : Str → Except RErr Str) (ps : List Str) :
    ∀ (acc gs : List (Str × List Str)), assignFiles resolve ps acc = .ok gs →
      ∀ k, lookupA k gs =
        match lookupA k acc with
        | some l => some (l ++ pathsFor resolve ps k)
        | none => if pathsFor resolve ps k = [] then none else some (pathsFor resolve ps k) := by
  induction ps with
  | nil =>
    intro acc gs hok k
    simp only [assignFiles, Except.ok.injEq] at hok
    subst hok
    simp only [pathsFor, List.filter_nil]
    rcases hacc : lookupA k acc with _ | l <;> simp [hacc]
  | cons p ps ih =>
    intro acc gs hok k
    simp only [assignFiles] at hok
    rcases hres : resolve p with e | h
    · rw [hres] at hok; exact absurd hok (by simp)
    · rw [hres] at hok
      have := ih (insertPush h p acc) gs hok k
      rw [lookupA_insertPush] at this
      by_cases hk : k = h
      · subst hk
        have hfil : pathsFor resolve (p :: ps) k = p :: pathsFor resolve ps k := by
          simp [pathsFor, List.filter_cons, hres]
        rw [hfil]
        simp only [if_true, eq_self_iff_true] at this
        rw [this]
        cases hacc : lookupA k acc <;> simp [hacc]
      · have hfil : pathsFor resolve (p :: ps) k = pathsFor resolve ps k := by
          have : ¬ (resolve p = .ok k) := by rw [hres]; simp; exact fun hc => hk hc.symm
          simp [pathsFor, List.filter_cons, this]
        rw [hfil]
        simp only [hk, if_false] at this
        exact this

lemma assign_nodup (resolve : Str → Except RErr Str) (ps : List Str) :
    ∀ (acc gs : List (Str × List Str)), (acc.map Prod.fst).Nodup →
      assignFiles resolve ps acc = .ok gs → (gs.map Prod.fst).Nodup := by
  induction ps with
  | nil =>
    intro acc gs hnd hok
    simp only [assignFiles, Except.ok.injEq] at hok
    subst hok; exact hnd
  | cons p ps ih =>
    intro acc gs hnd hok
    simp only [assignFiles] at hok
    rcases hres : resolve p with e | h
    · rw [hres] at hok; exact absurd hok (by simp)
    · rw [hres] at hok
      exact ih (insertPush h p acc) gs (nodup_keys_insertPush h p acc hnd) hok

lemma openPathsLoop_all (openH : Str → List Str → Bool) (ord : List (Str × List Str))
    (hall : ∀ g ∈ ord, openH g.1 g.2 = true) :
    (openPathsLoop openH ord).1 = ord ∧ (openPathsLoop openH ord).2 = true := by
  induction ord with
  | nil => simp [openPathsLoop]
  | cons g rest ih =>
    obtain ⟨h, ps⟩ := g
    have h1 : openH h ps = true := hall (h, ps) (List.mem_cons_self _ _)
    have := ih (fun g hg => hall g (List.mem_cons_of_mem _ hg))
    simp [openPathsLoop, h1, this.1, this.2]

/-- C3 (amended): the batch grouping is correct — the handler keys of the
produced groups are pairwise distinct, a group `(h, l)` exists exactly for
the handlers some path resolves to, with `l` the paths resolving to `h` in
input order; and under every iteration order of the handler map, when all
invocations succeed, the loop invokes exactly the groups of that order, each
once.  (The order in which the groups are processed is the hash map's
iteration order, which is unspecified.) -/
theorem assign_groups_paths_by_handler (resolve : Str → Except RErr Str)
    (paths : List Str) (gs : List (Str × List Str))
    (hok : assignFilesToHandlers resolve paths = .ok gs) :
    (gs.map Prod.fst).Nodup ∧
      (∀ h l, (h, l) ∈ gs ↔ (l = pathsFor resolve paths h ∧ l ≠ [])) ∧
      (∀ ord : List (Str × List Str), ord.Perm gs →
        ∀ openH : Str → List Str → Bool, (∀ g ∈ ord, openH g.1 g.2 = true) →
          (openPathsLoop openH ord).1 = ord ∧ (openPathsLoop openH ord).2 = true) := by
  have hnd := assign_nodup resolve paths [] gs (by simp) hok
  refine ⟨hnd, ?_, fun ord hperm openH hall => openPathsLoop_all openH ord hall⟩
  intro h l
  rw [mem_iff_lookupA gs hnd h l, assign_lookup resolve paths [] gs hok h]
  simp only [lookupA]
  by_cases hemp : pathsFor resolve paths h = []
  · simp [hemp]
  · simp only [hemp, if_false, Option.some.injEq]
    constructor
    · intro hl; exact ⟨hl.symm, hl ▸ hemp⟩
    · intro hl; exact hl.1.symm

/-- Witness for C3's amended claim at a concrete two-handler batch. -/
theorem assign_groups_paths_by_handler_witness :
    (([(['a'], [['a']]), (['b'], [['b']])] : List (Str × List Str)).map Prod.fst).Nodup ∧
      (openPathsLoop (fun _ _ => true) [(['b'], [['b']]), (['a'], [['a']])]).2 = true :=
  ⟨(assign_groups_paths_by_handler (fun p => .ok p) [['a'], ['b']]
      [(['a'], [['a']]), (['b'], [['b']])] (by decide)).1,
    ((assign_groups_paths_by_handler (fun p => .ok p) [['a'], ['b']]
        [(['a'], [['a']]), (['b'], [['b']])] (by decide)).2.2
      [(['b'], [['b']]), (['a'], [['a']])] (List.Perm.swap _ _ _)
      (fun _ _ => true) (fun g hg => rfl)).2⟩

/-- The fields of a parsed desktop entry used by the terminal fallback
(`DesktopEntry` in the source, restricted to `exec`/`name`/`categories`). -/
structure DEntry where
  execT : Str
  nameT : Str
  categories : List Str
  deriving DecidableEq, Repr

/-- `DesktopEntry::is_terminal_emulator`: membership of `TerminalEmulator`
in the entry's categories. -/
def isTerminalEmulator (e : DEntry) : Bool :=
  e.categories.contains ("TerminalEmulator".data)

/-- The mime key `x-scheme-handler/terminal`. -/
def termMime : Str := "x-scheme-handler/terminal".data

/-- Append `config.term_exec_args` (when set) after a space. -/
def appendTermArgs (exec : Str) (targs : Option Str) : Str :=
  match targs with
  | some o => exec ++ ' ' :: o
  | none => exec

/-- `Config::terminal` (src/handlr-regex/src/config.rs, lines 48-90).
`resolvedEntry` is the net outcome of resolving `x-scheme-handler/terminal`
and reading its desktop entry; on failure the code scans the installed
entries (`SystemApps::get_entries`, an ordered list here) for the first
terminal emulator, notifies the user, persists the choice with
`set_handler` + `save`, and uses that entry; otherwise it fails with
`NoTerminal`.  Returns the terminal command, the persisted registry state,
and whether the advisory notification fired.  (The `notify` and `save`
collaborators are modelled as succeeding.) -/
def terminalOld (resolvedEntry : Option DEntry) (entries : List (Str × DEntry))
    (apps : MimeAppsL) (targs : Option Str) : Res (Str × MimeAppsL × Bool) :=
  match resolvedEntry with
  | some e => .ok (appendTermArgs e.execT targs, apps, false)
  | none =>
    match entries.find? (fun pr => isTerminalEmulator pr.2) with
    | some (n, e) => .ok (appendTermArgs e.execT targs, setHandlerA termMime n apps, true)
    | none => .err .noTerminal

/-- C7 counterexample: when the fallback scan succeeds, the choice is
persisted under `default_apps` (via `set_handler`) — the added-associations
namespace stays empty, contradicting the claimed new added-association. -/
theorem terminal_persists_default_not_added_counterexample :
    terminalOld none
        [("wezterm.desktop".data, ⟨"wezterm start".data, "WezTerm".data, ["TerminalEmulator".data]⟩)]
        MimeAppsL.empty (some ("-e".data))
        = .ok ("wezterm start -e".data,
            ⟨[], [(termMime, ["wezterm.desktop".data])]⟩, true) ∧
      lookupA termMime (⟨[], [(termMime, ["wezterm.desktop".data])]⟩ : MimeAppsL).added = none := by
  constructor <;> decide

lemma lookupA_insertReplace_self (k : Str) (v : List Str) (l : List (Str × List Str)) :
    lookupA k (insertReplace k v l) = some v := by
  induction l with
  | nil => simp [insertReplace, lookupA]
  | cons q rest ih =>
    obtain ⟨k', v'⟩ := q
    by_cases hk : k' = k
    · subst hk; simp [insertReplace, lookupA]
    · simp [insertReplace, lookupA, hk, ih]

/-- C7 (amended): when resolving `x-scheme-handler/terminal` fails, the
fallback scan over all installed entries picks the first terminal emulator;
if one is found, the choice is persisted as the new *default application*
for `x-scheme-handler/terminal` (so a later resolution finds it in the
`default_apps` step and skips scan and notification) and the advisory
notification fires once; if the scan also fails, the operation fails with
`NoTerminal`; and when the resolution succeeds, nothing is persisted and no
notification fires. -/
theorem terminal_fallback_policy (entries : List (Str × DEntry)) (apps : MimeAppsL)
    (targs : Option Str) :
    (terminalOld none entries apps targs = .err .noTerminal ↔
        entries.find? (fun pr => isTerminalEmulator pr.2) = none) ∧
      (∀ n e, entries.find? (fun pr => isTerminalEmulator pr.2) = some (n, e) →
        terminalOld none entries apps targs =
            .ok (appendTermArgs e.execT targs, setHandlerA termMime n apps, true) ∧
          ∀ es en sel,
            getHandlerFromUser es en sel (setHandlerA termMime n apps).defaultApps termMime
              = .ok n) ∧
      (∀ e0, terminalOld (some e0) entries apps targs =
        .ok (appendTermArgs e0.execT targs, apps, false)) := by
  refine ⟨?_, ?_, fun e0 => rfl⟩
  · unfold terminalOld
    rcases hf : entries.find? (fun pr => isTerminalEmulator pr.2) with _ | ⟨n, e⟩ <;> rw [hf]
    · exact ⟨fun _ => rfl, fun _ => rfl⟩
    · exact ⟨fun hc => Res.noConfusion hc, fun hc => Option.noConfusion hc⟩
  · intro n e hf
    constructor
    · unfold terminalOld
      rw [hf]
    · intro es en sel
      unfold getHandlerFromUser
      have hl : lookupA termMime (setHandlerA termMime n apps).defaultApps = some [n] :=
        lookupA_insertReplace_self _ _ _
      rw [hl]
      simp

/-- Witness for C7's amended claim: with no terminal handler resolved and a
terminal emulator among the installed entries, the scan picks it, persists
it as the default application, and a later `default_apps` lookup returns
it. -/
theorem terminal_fallback_policy_witness :
    terminalOld none
        [("wezterm.desktop".data, ⟨"wezterm start".data, "WezTerm".data, ["TerminalEmulator".data]⟩)]
        MimeAppsL.empty (some ("-e".data))
        = .ok (appendTermArgs ("wezterm start".data) (some ("-e".data)),
            setHandlerA termMime ("wezterm.desktop".data) MimeAppsL.empty, true) ∧
      getHandlerFromUser false (fun _ => none) []
          (setHandlerA termMime ("wezterm.desktop".data) MimeAppsL.empty).defaultApps termMime
        = .ok ("wezterm.desktop".data) :=
  ⟨((terminal_fallback_policy
      [("wezterm.desktop".data, ⟨"wezterm start".data, "WezTerm".data, ["TerminalEmulator".data]⟩)]
      MimeAppsL.empty (some ("-e".data))).2.1 ("wezterm.desktop".data)
      ⟨"wezterm start".data, "WezTerm".data, ["TerminalEmulator".data]⟩ (by decide)).1,
    ((terminal_fallback_policy
      [("wezterm.desktop".data, ⟨"wezterm start".data, "WezTerm".data, ["TerminalEmulator".data]⟩)]
      MimeAppsL.empty (some ("-e".data))).2.1 ("wezterm.desktop".data)
      ⟨"wezterm start".data, "WezTerm".data, ["TerminalEmulator".data]⟩ (by decide)).2
      false (fun _ => none) []⟩

/-- `str::split(';')` / line splitting: split a string at every occurrence
of the separator (the result always has one more piece than separators). -/
def splitOnChar (c : Char) : Str → List Str
  | [] => [[]]
  | x :: xs =>
    match splitOnChar c xs with
    | [] => [[]]
    | h :: t => if x = c then [] :: h :: t else (x :: h) :: t

/-- `itertools::unique`: deduplicate keeping the first occurrence. -/
def uniqueKeep : List Str → List Str
  | [] => []
  | x :: xs => x :: uniqueKeep (xs.filter (fun y => y ≠ x))
termination_by l => l.length
decreasing_by
  simp only [List.length_cons]
  exact Nat.lt_succ_of_le (List.length_filter_le _ _)

lemma splitOnChar_ne_nil (c : Char) (s : Str) : splitOnChar c s ≠ [] := by
  cases s with
  | nil => simp [splitOnChar]
  | cons x xs =>
    unfold splitOnChar
    rcases splitOnChar c xs with _ | ⟨h, t⟩
    · simp
    · by_cases hx : x = c <;> simp [hx]

lemma splitOnChar_no_sep (c : Char) (s : Str) (hs : c ∉ s) : splitOnChar c s = [s] := by
  induction s with
  | nil => simp [splitOnChar]
  | cons x xs ih =>
    have hx : x ≠ c := fun hc => hs (hc ▸ List.mem_cons_self x xs)
    have hxs : c ∉ xs := fun hc => hs (List.mem_cons_of_mem _ hc)
    unfold splitOnChar
    rw [ih hxs]
    simp [hx]

lemma splitOnChar_append_sep (c : Char) (x rest : Str) (hx : c ∉ x) :
    splitOnChar c (x ++ c :: rest) = x :: splitOnChar c rest := by
  induction x with
  | nil =>
    simp only [List.nil_append]
    rw [splitOnChar]
    rcases h : splitOnChar c rest with _ | ⟨h1, t1⟩
    · exact absurd h (splitOnChar_ne_nil c rest)
    · simp
  | cons a as ih =>
    have ha : a ≠ c := fun hc => hx (hc ▸ List.mem_cons_self a as)
    have has : c ∉ as := fun hc => hx (List.mem_cons_of_mem _ hc)
    simp only [List.cons_append]
    rw [splitOnChar, ih has]
    rcases h : splitOnChar c rest with _ | ⟨h1, t1⟩
    · exact absurd h (splitOnChar_ne_nil c rest)
    · simp [ha]

lemma mem_splitOnChar_no_sep (c : Char) (s : Str) :
    ∀ piece ∈ splitOnChar c s, c ∉ piece := by
  induction s with
  | nil =>
    intro piece hp
    simp [splitOnChar] at hp
    simp [hp]
  | cons x xs ih =>
    intro piece hp
    unfold splitOnChar at hp
    rcases h : splitOnChar c xs with _ | ⟨h1, t1⟩
    · exact absurd h (splitOnChar_ne_nil c xs)
    · rw [h] at hp
      by_cases hx : x = c
      · simp only [hx, if_true] at hp
        rcases List.mem_cons.mp hp with rfl | hp2
        · simp
        · exact ih piece (h ▸ hp2)
      · simp only [hx, if_false] at hp
        rcases List.mem_cons.mp hp with rfl | hp2
        · intro hc
          rcases List.mem_cons.mp hc with rfl | hc2
          · exact hx rfl
          · exact ih h1 (h ▸ List.mem_cons_self h1 t1) hc2
        · exact ih piece (h ▸ List.mem_cons_of_mem _ hp2)

lemma mem_splitOnChar_subset (c : Char) (s : Str) :
    ∀ piece ∈ splitOnChar c s, ∀ a ∈ piece, a ∈ s := by
  induction s with
  | nil =>
    intro piece hp
    simp [splitOnChar] at hp
    simp [hp]
  | cons x xs ih =>
    intro piece hp a ha
    unfold splitOnChar at hp
    rcases h : splitOnChar c xs with _ | ⟨h1, t1⟩
    · exact absurd h (splitOnChar_ne_nil c xs)
    · rw [h] at hp
      by_cases hx : x = c
      · simp only [hx, if_true] at hp
        rcases List.mem_cons.mp hp with rfl | hp2
        · simp at ha
        · exact List.mem_cons_of_mem _ (ih piece (h ▸ hp2) a ha)
      · simp only [hx, if_false] at hp
        rcases List.mem_cons.mp hp with rfl | hp2
        · rcases List.mem_cons.mp ha with rfl | ha2
          · exact List.mem_cons_self _ _
          · exact List.mem_cons_of_mem _
              (ih h1 (h ▸ List.mem_cons_self h1 t1) a ha2)
        · exact List.mem_cons_of_mem _ (ih piece (h ▸ List.mem_cons_of_mem _ hp2) a ha)

lemma breakAtChar_eq (c : Char) (s a b : Str) (h : breakAtChar c s = some (a, b)) :
    s = a ++ c :: b ∧ c ∉ a := by
  induction s generalizing a b with
  | nil => simp [breakAtChar] at h
  | cons x xs ih =>
    unfold breakAtChar at h
    by_cases hx : x = c
    · subst hx
      simp only [if_true] at h
      injection h with h
      rw [Prod.mk.injEq] at h
      rw [← h.1, ← h.2]
      simp
    · simp only [hx, if_false] at h
      rcases hb : breakAtChar c xs with _ | ⟨a', b'⟩
      · rw [hb] at h; exact Option.noConfusion h
      · rw [hb] at h
        simp only [Option.map_some', Option.some.injEq, Prod.mk.injEq] at h
        obtain ⟨ha, hbb⟩ := h
        obtain ⟨hs, hna⟩ := ih a' b' hb
        subst hbb
        rw [← ha]
        constructor
        · rw [hs]; simp
        · intro hc
          rcases List.mem_cons.mp hc with rfl | hc2
          · exact hx rfl
          · exact hna hc2

lemma breakAtChar_append (c : Char) (a b : Str) (ha : c ∉ a) :
    breakAtChar c (a ++ c :: b) = some (a, b) := by
  induction a with
  | nil => simp [breakAtChar]
  | cons x xs ih =>
    have hx : x ≠ c := fun hc => ha (hc ▸ List.mem_cons_self x xs)
    have hxs : c ∉ xs := fun hc => ha (List.mem_cons_of_mem _ hc)
    simp only [List.cons_append]
    unfold breakAtChar
    rw [ih hxs]
    simp [hx]

lemma mem_uniqueKeep (l : List Str) : ∀ x ∈ uniqueKeep l, x ∈ l := by
  induction l using uniqueKeep.induct with
  | case1 => simp [uniqueKeep]
  | case2 x xs ih =>
    intro y hy
    unfold uniqueKeep at hy
    rcases List.mem_cons.mp hy with rfl | hy2
    · exact List.mem_cons_self _ _
    · exact List.mem_cons_of_mem _ (List.mem_of_mem_filter (ih y hy2))

lemma uniqueKeep_nodup (l : List Str) : (uniqueKeep l).Nodup := by
  induction l using uniqueKeep.induct with
  | case1 => simp [uniqueKeep]
  | case2 x xs ih =>
    unfold uniqueKeep
    refine List.nodup_cons.mpr ⟨?_, ih⟩
    intro hc
    have := mem_uniqueKeep _ x hc
    have := List.of_mem_filter this
    simp at this

lemma uniqueKeep_of_nodup (l : List Str) (h : l.Nodup) : uniqueKeep l = l := by
  induction l using uniqueKeep.induct with
  | case1 => simp [uniqueKeep]
  | case2 x xs ih =>
    unfold uniqueKeep
    rw [List.nodup_cons] at h
    have hf : xs.filter (fun y => y ≠ x) = xs := by
      apply List.filter_eq_self.mpr
      intro y hy
      simp only [ne_eq, decide_eq_true_eq]
      intro hc
      exact h.1 (hc ▸ hy)
    rw [hf] at ih ⊢
    rw [ih h.2]

/-- The characters the `mime` crate accepts inside the type and subtype of
a `type/subtype` string (restricted model of `Mime::from_str`, an external
collaborator: token characters, no separators, no whitespace). -/
def isValidMimeChar (c : Char) : Bool :=
  c.isAlphanum || c = '-' || c = '.' || c = '+' || c = '_' || c = '*' ||
    c = '!' || c = '#' || c = '$' || c = '&' || c = '^' || c = '~'

/-- Model of `Mime::from_str(..).is_ok()`: a nonempty type and subtype made
of token characters, separated by one slash. -/
def isValidMime (s : Str) : Bool :=
  match breakAtChar '/' s with
  | some (t, sub) => !t.isEmpty && !sub.isEmpty && (t ++ sub).all isValidMimeChar
  | none => false

/-- The three line shapes of the `mimeapps.list` INI format. -/
inductive LineKind where
  | sec (nameL : Str)
  | propL (nameL : Str) (value : Str)
  | other
  deriving DecidableEq, Repr

/-- Modelled from the spec: the `ini.pest` grammar file referenced by
`MimeApps::read` (`#[grammar = "common/ini.pest"]`) is not part of the
sources; per spec §4.4 a line is a `[section]` header, a `name=value`
property (split at the first `=`), or ignored. -/
def classifyLine (l : Str) : LineKind :=
  if l.head? = some '[' && l.getLast? = some ']' then
    .sec ((l.drop 1).dropLast)
  else
    match breakAtChar '=' l with
    | some (n, v) => .propL n v
    | none => .other

/-- The handler-list parsing of one property value in `MimeApps::read`
(src/handlr-regex/src/apps/user.rs, lines 202-214): split on `;`, drop empty
segments, deduplicate keeping first occurrences, keep the tokens accepted by
`DesktopHandler::from_str` (the filesystem-dependent validity oracle `vh`). -/
def parseHandlers (vh : Str → Bool) (v : Str) : List Str :=
  (uniqueKeep ((splitOnChar ';' v).filter (fun s => s ≠ []))).filter vh

/-- The line loop of `MimeApps::read` (src/handlr-regex/src/apps/user.rs,
lines 187-234): track the current section name, parse property lines, and
store nonempty handler lists under valid mime keys of the two known
sections. -/
def processLines (vh : Str → Bool) : List Str → Str → MimeAppsL → MimeAppsL
  | [], _, conf => conf
  | l :: ls, sec, conf =>
    match classifyLine l with
    | .sec nameL => processLines vh ls nameL conf
    | .propL nameL value =>
      let hs := parseHandlers vh value
      let conf' :=
        if hs = [] then conf
        else if isValidMime nameL then
          if sec = ("Added Associations".data) then
            { conf with added := insertReplace nameL hs conf.added }
          else if sec = ("Default Applications".data) then
            { conf with defaultApps := insertReplace nameL hs conf.defaultApps }
          else conf
        else conf
      processLines vh ls sec conf'
    | .other => processLines vh ls sec conf

/-- `MimeApps::read` on a given file content: split into lines and process
them starting outside any section with an empty configuration. -/
def parseText (vh : Str → Bool) (text : Str) : MimeAppsL :=
  processLines vh (splitOnChar '\n' text) [] ⟨[], []⟩

/-- Lexicographic order on strings (the `Ord` of the mime keys used by
`itertools::sorted` in `MimeApps::save`). -/
def lexLe : Str → Str → Bool
  | [], _ => true
  | _ :: _, [] => false
  | a :: as, b :: bs => if a = b then lexLe as bs else decide (a < b)

/-- Insertion step of sorting the map entries by key. -/
def insertSorted (p : Str × List Str) : List (Str × List Str) → List (Str × List Str)
  | [] => [p]
  | q :: rest => if lexLe p.1 q.1 then p :: q :: rest else q :: insertSorted p rest

/-- `.iter().sorted()` over the map entries (keys are unique, so this sorts
by key). -/
def sortPairs (l : List (Str × List Str)) : List (Str × List Str) :=
  l.foldr insertSorted []

/-- One serialized line: `mime=h1;h2;...;` (handlers joined with `;` plus a
trailing `;`). -/
def propLine (k : Str) (v : List Str) : Str :=
  k ++ '=' :: (joinWithChar ';' v ++ [';'])

/-- Join lines, terminating each with a newline (the writer emits every line
followed by `\n`). -/
def linesJoin : List Str → Str
  | [] => []
  | l :: ls => l ++ '\n' :: linesJoin ls

/-- `MimeApps::save` (src/handlr-regex/src/apps/user.rs, lines 238-268) as
the file content it writes: the `[Added Associations]` header line, one
`k=v1;v2;...;` line per added association in ascending key order, a blank
line, the `[Default Applications]` header line, and one line per default
application in ascending key order.  (The writer emits exactly these bytes:
`"[Added Associations]\n"`, then `key`, `"="`, the `;`-joined list, `";\n"`
per entry, then `"\n[Default Applications]\n"`, then the same per entry.) -/
def saveText (r : MimeAppsL) : Str :=
  linesJoin (("[Added Associations]".data)
    :: (sortPairs r.added).map (fun p => propLine p.1 p.2)
    ++ [[]] ++ ("[Default Applications]".data)
    :: (sortPairs r.defaultApps).map (fun p => propLine p.1 p.2))

/-- The invariants of every `(mime, handler list)` entry the parser stores. -/
def GoodPair (vh : Str → Bool) (p : Str × List Str) : Prop :=
  isValidMime p.1 = true ∧ p.2 ≠ [] ∧ p.2.Nodup ∧
    ∀ h ∈ p.2, h ≠ [] ∧ ';' ∉ h ∧ '\n' ∉ h ∧ vh h = true

/-- The invariants of each section map the parser builds: unique keys, and
every entry is good. -/
def WFpairs (vh : Str → Bool) (l : List (Str × List Str)) : Prop :=
  (l.map Prod.fst).Nodup ∧ ∀ p ∈ l, GoodPair vh p

lemma isValidMime_chars (k : Str) (hk : isValidMime k = true) :
    ∀ x ∈ k, x = '/' ∨ isValidMimeChar x = true := by
  unfold isValidMime at hk
  rcases hb : breakAtChar '/' k with _ | ⟨t, sub⟩
  · rw [hb] at hk; exact absurd hk (by simp)
  · rw [hb] at hk
    simp only [Bool.and_eq_true, List.all_eq_true] at hk
    obtain ⟨hs, hna⟩ := breakAtChar_eq '/' k t sub hb
    intro x hx
    rw [hs] at hx
    rcases List.mem_append.mp hx with h1 | h2
    · exact Or.inr (hk.2 x (List.mem_append.mpr (Or.inl h1)))
    · rcases List.mem_cons.mp h2 with rfl | h3
      · exact Or.inl rfl
      · exact Or.inr (hk.2 x (List.mem_append.mpr (Or.inr h3)))

lemma isValidMime_no_special (k : Str) (hk : isValidMime k = true) :
    '=' ∉ k ∧ '\n' ∉ k ∧ ';' ∉ k ∧ k ≠ [] := by
  refine ⟨?_, ?_, ?_, ?_⟩
  · intro hc
    rcases isValidMime_chars k hk '=' hc with h | h
    · exact absurd h (by decide)
    · exact absurd h (by decide)
  · intro hc
    rcases isValidMime_chars k hk '\n' hc with h | h
    · exact absurd h (by decide)
    · exact absurd h (by decide)
  · intro hc
    rcases isValidMime_chars k hk ';' hc with h | h
    · exact absurd h (by decide)
    · exact absurd h (by decide)
  · intro hc
    subst hc
    simp [isValidMime, breakAtChar] at hk

lemma classifyLine_propL_inv (l n v : Str) (h : classifyLine l = .propL n v) :
    breakAtChar '=' l = some (n, v) := by
  unfold classifyLine at h
  by_cases hh : (l.head? = some '[' && l.getLast? = some ']') = true
  · rw [if_pos hh] at h; exact LineKind.noConfusion h
  · rw [if_neg hh] at h
    rcases hb : breakAtChar '=' l with _ | ⟨n', v'⟩
    · rw [hb] at h; exact LineKind.noConfusion h
    · rw [hb] at h
      injection h with h1 h2
      rw [h1, h2]

lemma parseHandlers_mem (vh : Str → Bool) (v : Str) :
    ∀ h ∈ parseHandlers vh v,
      h ≠ [] ∧ ';' ∉ h ∧ (∀ a ∈ h, a ∈ v) ∧ vh h = true := by
  intro h hh
  unfold parseHandlers at hh
  have h1 := List.of_mem_filter hh
  have h2 : h ∈ uniqueKeep ((splitOnChar ';' v).filter (fun s => s ≠ [])) :=
    List.mem_of_mem_filter hh
  have h3 := mem_uniqueKeep _ h h2
  have h4 : h ∈ splitOnChar ';' v := List.mem_of_mem_filter h3
  have h5 := List.of_mem_filter h3
  refine ⟨by simpa using h5, mem_splitOnChar_no_sep ';' v h h4,
    fun a ha => mem_splitOnChar_subset ';' v h h4 a ha, h1⟩

lemma parseHandlers_nodup (vh : Str → Bool) (v : Str) : (parseHandlers vh v).Nodup :=
  List.Nodup.filter _ (uniqueKeep_nodup _)

lemma keys_insertReplace (k : Str) (v : List Str) (l : List (Str × List Str)) :
    (insertReplace k v l).map Prod.fst =
      if k ∈ l.map Prod.fst then l.map Prod.fst else l.map Prod.fst ++ [k] := by
  induction l with
  | nil => simp [insertReplace]
  | cons q rest ih =>
    obtain ⟨k', v'⟩ := q
    by_cases hk : k' = k
    · subst hk; simp [insertReplace]
    · have hk2 : ¬ k = k' := fun hc => hk hc.symm
      simp only [insertReplace, hk, if_false, List.map_cons]
      rw [ih]
      by_cases hmem : k ∈ rest.map Prod.fst
      · simp [hmem, hk2]
      · simp [hmem, hk2]

lemma mem_insertReplace (k : Str) (v : List Str) (l : List (Str × List Str)) :
    ∀ p ∈ insertReplace k v l, p = (k, v) ∨ p ∈ l := by
  induction l with
  | nil => intro p hp; simp [insertReplace] at hp; simp [hp]
  | cons q rest ih =>
    obtain ⟨k', v'⟩ := q
    intro p hp
    by_cases hk : k' = k
    · subst hk
      simp only [insertReplace, if_true] at hp
      rcases List.mem_cons.mp hp with rfl | hp2
      · exact Or.inl rfl
      · exact Or.inr (List.mem_cons_of_mem _ hp2)
    · simp only [insertReplace, hk, if_false] at hp
      rcases List.mem_cons.mp hp with rfl | hp2
      · exact Or.inr (List.mem_cons_self _ _)
      · rcases ih p hp2 with h | h
        · exact Or.inl h
        · exact Or.inr (List.mem_cons_of_mem _ h)

lemma WFpairs_insertReplace (vh : Str → Bool) (k : Str) (v : List Str)
    (l : List (Str × List Str)) (hwf : WFpairs vh l) (hg : GoodPair vh (k, v)) :
    WFpairs vh (insertReplace k v l) := by
  constructor
  · rw [keys_insertReplace]
    by_cases hmem : k ∈ l.map Prod.fst
    · simpa [hmem] using hwf.1
    · simp [hmem, List.nodup_append, hwf.1]
  · intro p hp
    rcases mem_insertReplace k v l p hp with rfl | h
    · exact hg
    · exact hwf.2 p h

lemma processLines_WF (vh : Str → Bool) (lines : List Str)
    (hl : ∀ l ∈ lines, '\n' ∉ l) :
    ∀ sec conf, WFpairs vh conf.added → WFpairs vh conf.defaultApps →
      WFpairs vh (processLines vh lines sec conf).added ∧
        WFpairs vh (processLines vh lines sec conf).defaultApps := by
  induction lines with
  | nil => intro sec conf ha hd; exact ⟨ha, hd⟩
  | cons l ls ih =>
    intro sec conf ha hd
    have hl' : ∀ x ∈ ls, '\n' ∉ x := fun x hx => hl x (List.mem_cons_of_mem _ hx)
    have hll : '\n' ∉ l := hl l (List.mem_cons_self _ _)
    unfold processLines
    rcases hc : classifyLine l with nameL | ⟨nameL, value⟩ | _
    · exact ih hl' nameL conf ha hd
    · dsimp only
      have hbreak := classifyLine_propL_inv l nameL value hc
      have hval : ∀ a ∈ value, a ∈ l := by
        obtain ⟨hs, _⟩ := breakAtChar_eq '=' l nameL value hbreak
        intro a haa
        rw [hs]
        exact List.mem_append.mpr (Or.inr (List.mem_cons_of_mem _ haa))
      by_cases hemp : parseHandlers vh value = []
      · rw [if_pos hemp]
        exact ih hl' sec conf ha hd
      · rw [if_neg hemp]
        by_cases hvm : isValidMime nameL = true
        · rw [if_pos hvm]
          have hgood : GoodPair vh (nameL, parseHandlers vh value) := by
            refine ⟨hvm, hemp, parseHandlers_nodup vh value, ?_⟩
            intro h hh
            obtain ⟨h1, h2, h3, h4⟩ := parseHandlers_mem vh value h hh
            exact ⟨h1, h2, fun hcnl => hll (hval '\n' (h3 '\n' hcnl)), h4⟩
          by_cases hsec1 : sec = ("Added Associations".data)
          · rw [if_pos hsec1]
            exact ih hl' sec
              { conf with added := insertReplace nameL (parseHandlers vh value) conf.added }
              (WFpairs_insertReplace vh _ _ _ ha hgood) hd
          · rw [if_neg hsec1]
            by_cases hsec2 : sec = ("Default Applications".data)
            · rw [if_pos hsec2]
              exact ih hl' sec
                { conf with defaultApps := insertReplace nameL (parseHandlers vh value) conf.defaultApps }
                ha (WFpairs_insertReplace vh _ _ _ hd hgood)
            · rw [if_neg hsec2]
              exact ih hl' sec conf ha hd
        · rw [if_neg hvm]
          exact ih hl' sec conf ha hd
    · exact ih hl' sec conf ha hd

/-- The two maps `MimeApps::read` builds always satisfy the parser
invariants. -/
lemma parseText_WF (vh : Str → Bool) (text : Str) :
    WFpairs vh (parseText vh text).added ∧ WFpairs vh (parseText vh text).defaultApps := by
  unfold parseText
  refine processLines_WF vh _ ?_ [] ⟨[], []⟩ ⟨by simp, by simp⟩ ⟨by simp, by simp⟩
  intro l hlm
  exact mem_splitOnChar_no_sep '\n' text l hlm

lemma lexLe_total (a : Str) : ∀ b, lexLe a b = true ∨ lexLe b a = true := by
  induction a with
  | nil => intro b; exact Or.inl rfl
  | cons x as ih =>
    intro b
    rcases b with _ | ⟨y, bs⟩
    · exact Or.inr rfl
    · unfold lexLe
      by_cases hxy : x = y
      · subst hxy
        simp only [if_true]
        exact ih bs
      · have hyx : ¬ y = x := fun hc => hxy hc.symm
        simp only [hxy, hyx, if_false]
        rcases lt_or_gt_of_ne hxy with h | h
        · exact Or.inl (decide_eq_true h)
        · exact Or.inr (decide_eq_true h)

lemma lexLe_trans : ∀ a b c : Str, lexLe a b = true → lexLe b c = true → lexLe a c = true := by
  intro a
  induction a with
  | nil => intro b c hab hbc; rfl
  | cons x as ih =>
    intro b c hab hbc
    rcases b with _ | ⟨y, bs⟩
    · exact absurd hab (by simp [lexLe])
    · rcases c with _ | ⟨z, cs⟩
      · exact absurd hbc (by simp [lexLe])
      · unfold lexLe at hab hbc ⊢
        by_cases hxy : x = y
        · subst hxy
          simp only [if_true] at hab
          by_cases hxz : x = z
          · subst hxz
            simp only [if_true] at hbc ⊢
            exact ih bs cs hab hbc
          · simp only [hxz, if_false] at hbc ⊢
            exact hbc
        · simp only [hxy, if_false] at hab
          by_cases hyz : y = z
          · subst hyz
            simp only [hxy, if_false]
            exact hab
          · simp only [hyz, if_false] at hbc
            have hlt : x < z := lt_trans (of_decide_eq_true hab) (of_decide_eq_true hbc)
            have hxz : ¬ x = z := ne_of_lt hlt
            simp only [hxz, if_false]
            exact decide_eq_true hlt

/-- Key order on map entries. -/
def keyLe (p q : Str × List Str) : Prop := lexLe p.1 q.1 = true

lemma insertSorted_perm (p : Str × List Str) (l : List (Str × List Str)) :
    (insertSorted p l).Perm (p :: l) := by
  induction l with
  | nil => simp [insertSorted]
  | cons q rest ih =>
    unfold insertSorted
    by_cases h : lexLe p.1 q.1
    · simp [h]
    · simp only [h, Bool.false_eq_true, if_false]
      exact (ih.cons q).trans (List.Perm.swap p q rest)

lemma sortPairs_perm (l : List (Str × List Str)) : (sortPairs l).Perm l := by
  induction l with
  | nil => simp [sortPairs]
  | cons p rest ih =>
    unfold sortPairs
    simp only [List.foldr_cons]
    exact (insertSorted_perm p _).trans (ih.cons p)

lemma insertSorted_pairwise (p : Str × List Str) (l : List (Str × List Str))
    (hl : l.Pairwise keyLe) : (insertSorted p l).Pairwise keyLe := by
  induction l with
  | nil => simp [insertSorted, List.pairwise_singleton]
  | cons q rest ih =>
    rw [List.pairwise_cons] at hl
    unfold insertSorted
    by_cases h : lexLe p.1 q.1
    · simp only [h, if_true]
      refine List.pairwise_cons.mpr ⟨?_, List.pairwise_cons.mpr hl⟩
      intro x hx
      rcases List.mem_cons.mp hx with rfl | hx2
      · exact h
      · exact lexLe_trans _ _ _ h (hl.1 x hx2)
    · simp only [h, Bool.false_eq_true, if_false]
      refine List.pairwise_cons.mpr ⟨?_, ih hl.2⟩
      intro x hx
      rcases List.mem_cons.mp ((insertSorted_perm p rest).mem_iff.mp hx) with heq | h2
      · rw [heq]
        rcases lexLe_total p.1 q.1 with h3 | h3
        · exact absurd h3 h
        · exact h3
      · exact hl.1 x h2

lemma sortPairs_pairwise (l : List (Str × List Str)) : (sortPairs l).Pairwise keyLe := by
  induction l with
  | nil => simp [sortPairs]
  | cons p rest ih =>
    unfold sortPairs
    simp only [List.foldr_cons]
    exact insertSorted_pairwise p _ ih

lemma sortPairs_WF (vh : Str → Bool) (l : List (Str × List Str)) (h : WFpairs vh l) :
    WFpairs vh (sortPairs l) := by
  constructor
  · exact (((sortPairs_perm l).map Prod.fst).nodup_iff).mpr h.1
  · intro p hp
    exact h.2 p ((sortPairs_perm l).mem_iff.mp hp)

lemma splitOnChar_linesJoin (ls : List Str) (h : ∀ l ∈ ls, '\n' ∉ l) :
    splitOnChar '\n' (linesJoin ls) = ls ++ [[]] := by
  induction ls with
  | nil => simp [linesJoin, splitOnChar]
  | cons l ls ih =>
    unfold linesJoin
    rw [splitOnChar_append_sep '\n' l _ (h l (List.mem_cons_self _ _)),
      ih (fun x hx => h x (List.mem_cons_of_mem _ hx))]
    rfl

lemma joinWithChar_cons_cons (c : Char) (x y : Str) (t : List Str) :
    joinWithChar c (x :: y :: t) = x ++ c :: joinWithChar c (y :: t) := rfl

lemma mem_joinWithChar (c : Char) (v : List Str) :
    ∀ x ∈ joinWithChar c v, x = c ∨ ∃ t ∈ v, x ∈ t := by
  induction v with
  | nil => simp [joinWithChar]
  | cons a as ih =>
    intro x hx
    rcases as with _ | ⟨b, t⟩
    · exact Or.inr ⟨a, List.mem_cons_self _ _, hx⟩
    · rw [joinWithChar_cons_cons] at hx
      rcases List.mem_append.mp hx with h1 | h2
      · exact Or.inr ⟨a, List.mem_cons_self _ _, h1⟩
      · rcases List.mem_cons.mp h2 with rfl | h3
        · exact Or.inl rfl
        · rcases ih x h3 with h4 | ⟨t', ht', hxt⟩
          · exact Or.inl h4
          · exact Or.inr ⟨t', List.mem_cons_of_mem _ ht', hxt⟩

lemma propLine_no_newline (k : Str) (v : List Str) (hk : '\n' ∉ k)
    (hv : ∀ t ∈ v, '\n' ∉ t) : '\n' ∉ propLine k v := by
  unfold propLine
  intro hc
  rcases List.mem_append.mp hc with h1 | h2
  · exact hk h1
  · rcases List.mem_cons.mp h2 with h3 | h4
    · exact absurd h3 (by decide)
    · rcases List.mem_append.mp h4 with h5 | h6
      · rcases mem_joinWithChar ';' v '\n' h5 with h7 | ⟨t, ht, hxt⟩
        · exact absurd h7 (by decide)
        · exact hv t ht hxt
      · rcases List.mem_cons.mp h6 with h7 | h8
        · exact absurd h7 (by decide)
        · simp at h8

lemma splitOnChar_join_trailing (v : List Str) (hv : v ≠ [])
    (h : ∀ x ∈ v, ';' ∉ x) :
    splitOnChar ';' (joinWithChar ';' v ++ [';']) = v ++ [[]] := by
  induction v with
  | nil => exact absurd rfl hv
  | cons a as ih =>
    rcases as with _ | ⟨b, t⟩
    · simp only [joinWithChar]
      rw [show (a ++ [';']) = a ++ ';' :: [] by simp,
        splitOnChar_append_sep ';' a [] (h a (List.mem_cons_self _ _))]
      rfl
    · rw [joinWithChar_cons_cons]
      rw [show ((a ++ ';' :: joinWithChar ';' (b :: t)) ++ [';'])
          = a ++ ';' :: (joinWithChar ';' (b :: t) ++ [';']) by simp,
        splitOnChar_append_sep ';' a _ (h a (List.mem_cons_self _ _)),
        ih (by simp) (fun x hx => h x (List.mem_cons_of_mem _ hx))]
      rfl

lemma parseHandlers_roundtrip (vh : Str → Bool) (v : List Str) (hv : v ≠ [])
    (hnd : v.Nodup) (hgood : ∀ t ∈ v, t ≠ [] ∧ ';' ∉ t ∧ vh t = true) :
    parseHandlers vh (joinWithChar ';' v ++ [';']) = v := by
  unfold parseHandlers
  rw [splitOnChar_join_trailing v hv (fun x hx => (hgood x hx).2.1)]
  have h1 : (v ++ [[]]).filter (fun s => s ≠ []) = v := by
    rw [List.filter_append]
    have h2 : v.filter (fun s => s ≠ []) = v :=
      List.filter_eq_self.mpr (fun a ha => by
        simpa using (hgood a ha).1)
    rw [h2]
    simp
  rw [h1, uniqueKeep_of_nodup v hnd]
  exact List.filter_eq_self.mpr (fun a ha => (hgood a ha).2.2)

lemma classify_propLine (k : Str) (v : List Str) (hk : isValidMime k = true) :
    classifyLine (propLine k v) = .propL k (joinWithChar ';' v ++ [';']) := by
  obtain ⟨hke, _, _, _⟩ := isValidMime_no_special k hk
  unfold classifyLine
  have hlast : (propLine k v).getLast? = some ';' := by
    unfold propLine
    rw [show k ++ '=' :: (joinWithChar ';' v ++ [';'])
        = (k ++ '=' :: joinWithChar ';' v) ++ ';' :: [] by simp]
    rw [List.getLast?_append_cons]
    rfl
  rw [hlast]
  have hcond : ((propLine k v).head? = some '[' && (some ';' = some ']' : Bool)) = false := by
    simp
  rw [hcond]
  simp only [Bool.false_eq_true, if_false]
  unfold propLine
  rw [breakAtChar_append '=' k _ hke]

lemma insertReplace_fresh (k : Str) (v : List Str) (l : List (Str × List Str))
    (h : k ∉ l.map Prod.fst) : insertReplace k v l = l ++ [(k, v)] := by
  induction l with
  | nil => simp [insertReplace]
  | cons q rest ih =>
    obtain ⟨k', v'⟩ := q
    have hk : k' ≠ k := by
      intro hc
      exact h (by simp [hc])
    simp only [insertReplace, hk, if_false, List.cons_append, List.cons.injEq, true_and]
    exact ih (fun hc => h (List.mem_cons_of_mem _ hc))


lemma process_section_added (vh : Str → Bool) (ps : List (Str × List Str)) (rest : List Str) :
    ∀ conf : MimeAppsL, (∀ p ∈ ps, GoodPair vh p) →
      (conf.added.map Prod.fst ++ ps.map Prod.fst).Nodup →
      processLines vh (ps.map (fun p => propLine p.1 p.2) ++ rest)
          ("Added Associations".data) conf
        = processLines vh rest ("Added Associations".data)
            { conf with added := conf.added ++ ps } := by
  induction ps with
  | nil =>
    intro conf hg hnd
    simp
  | cons p ps ih =>
    intro conf hg hnd
    obtain ⟨k, v⟩ := p
    have hgp : GoodPair vh (k, v) := hg (k, v) (List.mem_cons_self _ _)
    obtain ⟨hvm, hvne, hvnd, hvtok⟩ := hgp
    simp only [List.map_cons, List.cons_append]
    rw [processLines, classify_propLine k v hvm]
    dsimp only
    have hph : parseHandlers vh (joinWithChar ';' v ++ [';']) = v :=
      parseHandlers_roundtrip vh v hvne hvnd
        (fun t ht => ⟨(hvtok t ht).1, (hvtok t ht).2.1, (hvtok t ht).2.2.2⟩)
    rw [hph, if_neg hvne, if_pos hvm, if_pos rfl]
    have hkf : k ∉ conf.added.map Prod.fst := by
      intro hc
      exact (List.nodup_append.mp hnd).2.2 hc (by simp)
    rw [insertReplace_fresh k v conf.added hkf]
    have hnd' : ((conf.added ++ [(k, v)]).map Prod.fst ++ ps.map Prod.fst).Nodup := by
      simp only [List.map_append, List.map_cons, List.map_nil]
      have he : (conf.added.map Prod.fst ++ [k]) ++ ps.map Prod.fst
          = conf.added.map Prod.fst ++ k :: ps.map Prod.fst := by simp
      rw [he]
      simpa using hnd
    rw [ih { conf with added := conf.added ++ [(k, v)] }
      (fun q hq => hg q (List.mem_cons_of_mem _ hq)) hnd']
    have he2 : (conf.added ++ [(k, v)]) ++ ps = conf.added ++ (k, v) :: ps := by simp
    rw [he2]

lemma process_section_default (vh : Str → Bool) (ps : List (Str × List Str)) (rest : List Str) :
    ∀ conf : MimeAppsL, (∀ p ∈ ps, GoodPair vh p) →
      (conf.defaultApps.map Prod.fst ++ ps.map Prod.fst).Nodup →
      processLines vh (ps.map (fun p => propLine p.1 p.2) ++ rest)
          ("Default Applications".data) conf
        = processLines vh rest ("Default Applications".data)
            { conf with defaultApps := conf.defaultApps ++ ps } := by
  induction ps with
  | nil =>
    intro conf hg hnd
    simp
  | cons p ps ih =>
    intro conf hg hnd
    obtain ⟨k, v⟩ := p
    have hgp : GoodPair vh (k, v) := hg (k, v) (List.mem_cons_self _ _)
    obtain ⟨hvm, hvne, hvnd, hvtok⟩ := hgp
    simp only [List.map_cons, List.cons_append]
    rw [processLines, classify_propLine k v hvm]
    dsimp only
    have hph : parseHandlers vh (joinWithChar ';' v ++ [';']) = v :=
      parseHandlers_roundtrip vh v hvne hvnd
        (fun t ht => ⟨(hvtok t ht).1, (hvtok t ht).2.1, (hvtok t ht).2.2.2⟩)
    have hne : ¬ (("Default Applications".data : Str) = ("Added Associations".data)) := by decide
    rw [hph, if_neg hvne, if_pos hvm, if_neg hne, if_pos rfl]
    have hkf : k ∉ conf.defaultApps.map Prod.fst := by
      intro hc
      exact (List.nodup_append.mp hnd).2.2 hc (by simp)
    rw [insertReplace_fresh k v conf.defaultApps hkf]
    have hnd' : ((conf.defaultApps ++ [(k, v)]).map Prod.fst ++ ps.map Prod.fst).Nodup := by
      simp only [List.map_append, List.map_cons, List.map_nil]
      have he : (conf.defaultApps.map Prod.fst ++ [k]) ++ ps.map Prod.fst
          = conf.defaultApps.map Prod.fst ++ k :: ps.map Prod.fst := by simp
      rw [he]
      simpa using hnd
    rw [ih { conf with defaultApps := conf.defaultApps ++ [(k, v)] }
      (fun q hq => hg q (List.mem_cons_of_mem _ hq)) hnd']
    have he2 : (conf.defaultApps ++ [(k, v)]) ++ ps = conf.defaultApps ++ (k, v) :: ps := by simp
    rw [he2]

lemma map_propLine_no_newline (vh : Str → Bool) (ps : List (Str × List Str))
    (hps : WFpairs vh ps) :
    ∀ l ∈ ps.map (fun p => propLine p.1 p.2), '\n' ∉ l := by
  intro l hl
  obtain ⟨p, hp, rfl⟩ := List.mem_map.mp hl
  obtain ⟨h1, h2, h3, h4⟩ := hps.2 p hp
  exact propLine_no_newline p.1 p.2 (isValidMime_no_special p.1 h1).2.1
    (fun t ht => (h4 t ht).2.2.1)

/-- Re-reading the file just written by `MimeApps::save` reconstructs each
section exactly as its key-sorted entry list. -/
lemma parse_of_save (vh : Str → Bool) (r : MimeAppsL)
    (hwA : WFpairs vh r.added) (hwD : WFpairs vh r.defaultApps) :
    parseText vh (saveText r) = ⟨sortPairs r.added, sortPairs r.defaultApps⟩ := by
  have hA := sortPairs_WF vh r.added hwA
  have hD := sortPairs_WF vh r.defaultApps hwD
  have hlines : ∀ l ∈ (("[Added Associations]".data)
      :: (sortPairs r.added).map (fun p => propLine p.1 p.2)
      ++ [[]] ++ ("[Default Applications]".data)
      :: (sortPairs r.defaultApps).map (fun p => propLine p.1 p.2)), '\n' ∉ l := by
    intro l hl
    rcases List.mem_cons.mp hl with rfl | hl2
    · decide
    · rcases List.mem_append.mp hl2 with hl3 | hl4
      · rcases List.mem_append.mp hl3 with hl5 | hl6
        · exact map_propLine_no_newline vh _ hA l hl5
        · rcases List.mem_cons.mp hl6 with rfl | hl7
          · simp
          · simp at hl7
      · rcases List.mem_cons.mp hl4 with rfl | hl8
        · decide
        · exact map_propLine_no_newline vh _ hD l hl8
  unfold parseText saveText
  rw [splitOnChar_linesJoin _ hlines]
  have hshape : ((("[Added Associations]".data)
      :: (sortPairs r.added).map (fun p => propLine p.1 p.2)
      ++ [[]] ++ ("[Default Applications]".data)
      :: (sortPairs r.defaultApps).map (fun p => propLine p.1 p.2)) ++ [[]])
      = ("[Added Associations]".data)
        :: ((sortPairs r.added).map (fun p => propLine p.1 p.2)
          ++ ([] :: ("[Default Applications]".data)
            :: ((sortPairs r.defaultApps).map (fun p => propLine p.1 p.2) ++ [[]]))) := by
    simp
  rw [hshape, processLines,
    show classifyLine ("[Added Associations]".data)
      = LineKind.sec ("Added Associations".data) from by decide]
  dsimp only
  rw [process_section_added vh (sortPairs r.added) _ ⟨[], []⟩
    (fun p hp => hA.2 p hp) (by simpa using hA.1)]
  rw [processLines, show classifyLine ([] : Str) = LineKind.other from by decide]
  dsimp only
  rw [processLines,
    show classifyLine ("[Default Applications]".data)
      = LineKind.sec ("Default Applications".data) from by decide]
  dsimp only
  rw [process_section_default vh (sortPairs r.defaultApps) _ _
    (fun p hp => hD.2 p hp) (by simpa using hD.1)]
  rw [processLines, show classifyLine ([] : Str) = LineKind.other from by decide]
  dsimp only
  rw [processLines]
  simp

/-- C8: round-trip of the registry persistence.  Serializing any parsed
registry and re-parsing the produced file yields an equal registry: each
section is reconstructed exactly (as its key-sorted entry list, hence a
permutation of the original map entries with every handler list preserved
in order), and the serialized file lists each section's mime keys in
ascending order with the handler list joined by `;` and a trailing `;`. -/
theorem registry_save_roundtrip (text : Str) (vh : Str → Bool) :
    (parseText vh (saveText (parseText vh text))).added
        = sortPairs (parseText vh text).added ∧
      (parseText vh (saveText (parseText vh text))).defaultApps
        = sortPairs (parseText vh text).defaultApps ∧
      (parseText vh (saveText (parseText vh text))).added.Perm
        (parseText vh text).added ∧
      (parseText vh (saveText (parseText vh text))).defaultApps.Perm
        (parseText vh text).defaultApps ∧
      ((sortPairs (parseText vh text).added).map Prod.fst).Pairwise
        (fun a b => lexLe a b = true) ∧
      ((sortPairs (parseText vh text).defaultApps).map Prod.fst).Pairwise
        (fun a b => lexLe a b = true) ∧
      saveText (parseText vh text) = linesJoin (("[Added Associations]".data)
        :: (sortPairs (parseText vh text).added).map
            (fun p => p.1 ++ '=' :: (joinWithChar ';' p.2 ++ [';']))
        ++ [[]] ++ ("[Default Applications]".data)
        :: (sortPairs (parseText vh text).defaultApps).map
            (fun p => p.1 ++ '=' :: (joinWithChar ';' p.2 ++ [';']))) := by
  obtain ⟨hwA, hwD⟩ := parseText_WF vh text
  have hps := parse_of_save vh (parseText vh text) hwA hwD
  refine ⟨by rw [hps], by rw [hps], ?_, ?_, ?_, ?_, rfl⟩
  · rw [hps]
    exact sortPairs_perm _
  · rw [hps]
    exact sortPairs_perm _
  · exact (List.pairwise_map).mpr (sortPairs_pairwise _)
  · exact (List.pairwise_map).mpr (sortPairs_pairwise _)
